import Mathlib

/-!
Verification of the routerd startup path (`src/routerd_lib/main.cpp`) and the
per-request in-progress bookkeeping (`src/routerd_lib/request.hpp`).

The C++ is embedded shallowly:

* `std::unordered_map<std::string, std::set<std::string>>` (the
  `TRouterDGraph::TTree` adjacency maps) becomes `SMap`: a `Finset String` of
  keys together with a total valuation `String → Finset String` that is the
  empty set outside the key set.  `unordered_map` iteration order is
  unspecified in C++; every loop the code runs over such a map commutes over
  its elements, and the embedding iterates in the canonical sorted order
  (`iterOrder`), which is also the order `std::set` iteration follows.
* the other maps (`hosts`, `Services`, `graphs`), whose values are opaque to
  the algorithms, become association lists (`List (String × _)`).
* fallible code paths (those ending in `return 1` after a `std::cerr`
  diagnostic) become `Except Diag _`; each distinct diagnostic message is a
  `Diag` constructor.
* code paths that throw an uncaught C++ exception become the `Outcome.thrown`
  constructor.
-/

/-- Shape of `TServiceHost` (declared in `structs.hpp`, used by `main.cpp`
lines 72–75): an address string and a port.  `Port` is the C++
`unsigned short`; its value always fits 16 bits. -/
structure TServiceHost where
  Addr : String
  Port : Nat
  deriving DecidableEq, Repr

/-- Shape of `TService` (declared in `structs.hpp`; fields `Name`,
`HostsFrom`, `Path` as read and written by `main.cpp` lines 86–119).
`Path` is a `std::string`, default-constructed empty unless the config
supplies one. -/
structure TService where
  Name : String
  HostsFrom : String
  Path : String
  deriving DecidableEq, Repr

/-- Embedding of `std::unordered_map<std::string, std::set<std::string>>`
(`TRouterDGraph::TTree`): the set of present keys plus a total valuation that
returns the mapped `std::set` for present keys and `∅` for absent ones. -/
structure SMap where
  keys : Finset String
  val : String → Finset String

/-- An empty `TTree`. -/
def SMap.empty : SMap := ⟨∅, fun _ => ∅⟩

/-- `m.emplace(k, {})` — inserts an empty set under `k` unless `k` is already
present (C++ `emplace` does not overwrite). -/
def SMap.emplace (m : SMap) (k : String) : SMap :=
  if k ∈ m.keys then m else ⟨insert k m.keys, Function.update m.val k ∅⟩

/-- `m[k].insert(v)` — `operator[]` default-constructs an empty set when `k`
is absent, then `v` is inserted into the mapped set. -/
def SMap.insertVal (m : SMap) (k v : String) : SMap :=
  ⟨insert k m.keys, Function.update m.val k (insert v (m.val k))⟩

/-- `m.erase(k)` — removes the entry for `k`.  The valuation is reset to `∅`
at `k`, keeping the convention that absent keys map to `∅`. -/
def SMap.eraseKey (m : SMap) (k : String) : SMap :=
  ⟨m.keys.erase k, Function.update m.val k ∅⟩

/-- `m.at(k).erase(v)` — erases `v` from the set mapped at `k`.  C++ `at`
throws on an absent key; on the code's reachable states the key is always
present (on absent keys this embedding leaves the `∅` valuation unchanged,
which agrees with the identity `∅.erase v = ∅`). -/
def SMap.atErase (m : SMap) (k v : String) : SMap :=
  ⟨m.keys, Function.update m.val k ((m.val k).erase v)⟩

/-- Shape of `TRouterDGraph` (declared in `structs.hpp`): the compiled
services, the forward dependency tree and the reverse tree, as filled in by
`RouterDMain` (`main.cpp` lines 83–184). -/
structure TRouterDGraph where
  Services : List (String × TService)
  Tree : SMap
  ReverseTree : SMap

/-- `map.count(k) > 0` on an association-list map. -/
def containsKey {α : Type} (l : List (String × α)) (k : String) : Bool :=
  l.any (fun p => p.1 = k)

/-- `map.at(k)` on an association-list map, totalized with a default. -/
def lookupKey {α : Type} (l : List (String × α)) (k : String) (d : α) : α :=
  match l.find? (fun p => p.1 = k) with
  | some p => p.2
  | none => d

/-- One service entry of a graph's `services` array: either a bare JSON
string or an object with `name` and optional `hosts_from` / `path`
(`main.cpp` lines 86–106). -/
inductive ServiceEntry where
  | str (s : String)
  | obj (name : String) (hostsFrom : Option String) (path : Option String)
  deriving DecidableEq, Repr

/-- One entry of a graph's `deps` array: `{"a": ..., "b": ...}`, meaning
`a` depends on `b` (`main.cpp` lines 125–127). -/
structure Dep where
  a : String
  b : String
  deriving DecidableEq, Repr

/-- One named graph of the `graphs` object. -/
structure GraphConf where
  services : List ServiceEntry
  deps : Option (List Dep)
  deriving DecidableEq, Repr

/-- One entry of the `routes` array: `{"r": pattern, "g": graph}`. -/
structure RouteConf where
  r : String
  g : String
  deriving DecidableEq, Repr

/-- The parsed configuration document, as extracted by `RouterDMain` from the
JSON value (`main.cpp` lines 46–50, 81, 189, 198–199). -/
structure ConfigDoc where
  bind4 : Option String
  bind6 : Option String
  hosts : List (String × List String)
  graphs : List (String × GraphConf)
  routes : List RouteConf
  port : Nat
  threads : Option Nat

/-- The distinct `std::cerr` diagnostics that `RouterDMain` prints right
before `return 1` (`main.cpp` lines 52, 63, 109, 114, 130, 135, 140, 163). -/
inductive Diag where
  | EmptyHostGroup (group : String)
  | MalformedHost (group host : String)
  | UnknownHostGroup (graph group : String)
  | DuplicateService (graph name : String)
  | SelfDependency (graph name : String)
  | UnknownService (graph name : String)
  | DependencyCycle (graph : String)
  deriving DecidableEq, Repr

/-- C++ exceptions that escape `RouterDMain` uncaught (there is no
`try`/`catch` in `main.cpp`): `nlohmann::json::parse_error` from
`json::parse`, `nlohmann::json::type_error` from `get<T>()` on a value of the
wrong type, and `std::out_of_range` from `map.at` on an absent key. -/
inductive Exc where
  | parseError
  | typeError
  | outOfRange
  deriving DecidableEq, Repr

/-- Result of running `RouterDMain`: `exitError c d` models printing
diagnostic `d` to stderr and returning exit code `c`; `thrown e` models an
uncaught C++ exception terminating the process abnormally; `running` models
reaching `NHTTPServer::TServer(args, router).Run()` with the compiled
artifacts. -/
inductive Outcome where
  | exitError (code : Nat) (d : Diag)
  | thrown (e : Exc)
  | running (graphs : List (String × TRouterDGraph))
      (pool : List (String × List TServiceHost))

/-- Index of the last `':'` in a character list (`host.rfind(':')`,
`main.cpp` line 60); `none` when there is no colon (`rfind` returns `npos`,
which the code detects as `colon < 0`). -/
def rfindColon : List Char → Option Nat
  | [] => none
  | c :: cs =>
    match rfindColon cs with
    | some i => some (i + 1)
    | none => if c = ':' then some 0 else none

/-- The value `ss >> port` stores into `unsigned short port` after
`ss << suffix` (`main.cpp` lines 67–70): optional leading whitespace and
sign, then decimal digits.  No digits ⇒ extraction fails and stores 0
(C++11); a value out of `unsigned short` range ⇒ extraction fails and stores
65535; a negated magnitude wraps modulo 2^64 and then overflows to 65535
unless it is 0.  Extraction failure is never checked by the code, so it
cannot fail startup. -/
def parsePort (s : List Char) : Nat :=
  let t := s.dropWhile (fun c => c = ' ' ∨ c = '\t')
  let neg := t.head? = some '-'
  let t := if t.head? = some '-' ∨ t.head? = some '+' then t.drop 1 else t
  let ds := t.takeWhile Char.isDigit
  if ds = [] then 0
  else
    let v := ds.foldl (fun n c => n * 10 + (c.toNat - 48)) (0 : Nat)
    if neg then (if v % 2 ^ 64 = 0 then 0 else 65535) else min v 65535

/-- Parsing of one host string of group `group` (`main.cpp` lines 59–75):
no colon ⇒ diagnostic and `return 1`; otherwise the address is the prefix
before the last colon and the port is extracted from the suffix after it. -/
def parseHost (group host : String) : Except Diag TServiceHost :=
  match rfindColon host.data with
  | none => .error (.MalformedHost group host)
  | some i => .ok ⟨⟨host.data.take i⟩, parsePort (host.data.drop (i + 1))⟩

/-- Parsing of one host group's list (the inner loop of `main.cpp`
lines 59–76). -/
def parseGroup (group : String) : List String → Except Diag (List TServiceHost)
  | [] => .ok []
  | h :: hs =>
    match parseHost group h with
    | .error d => .error d
    | .ok e =>
      match parseGroup group hs with
      | .error d => .error d
      | .ok es => .ok (e :: es)

/-- The `hosts` loop of `RouterDMain` (`main.cpp` lines 50–77): an empty
group fails with the `has no hosts` diagnostic, a host without a colon fails
with the `has no port specified` diagnostic, otherwise every host string
yields one `TServiceHost`. -/
def buildHosts : List (String × List String) →
    Except Diag (List (String × List TServiceHost))
  | [] => .ok []
  | (g, hs) :: rest =>
    if hs = [] then .error (.EmptyHostGroup g)
    else
      match parseGroup g hs with
      | .error d => .error d
      | .ok es =>
        match buildHosts rest with
        | .error d => .error d
        | .ok acc => .ok ((g, es) :: acc)

/-- Normalization of one `services` entry to a `TService` (`main.cpp`
lines 87–106): a bare string gives `Name = HostsFrom = s`; an object takes
`name`, `hosts_from` when present (else `name`), and `path` when present
(else the default-constructed empty string). -/
def normalizeService : ServiceEntry → TService
  | .str s => ⟨s, s, ""⟩
  | .obj n hf p => ⟨n, hf.getD n, p.getD ""⟩

/-- Accumulated state of the `services` loop: the zero-initialized
dependency tree and the `Services` map of the graph being compiled. -/
structure ServState where
  tree : SMap
  services : List (String × TService)

/-- Processing of one `services` entry (`main.cpp` lines 86–120): normalize,
fail on an unknown host group, fail on a duplicate name, otherwise emplace an
empty adjacency set and record the service. -/
def processService (gname : String) (pool : List (String × List TServiceHost))
    (st : ServState) (e : ServiceEntry) : Except Diag ServState :=
  let s := normalizeService e
  if containsKey pool s.HostsFrom = false then
    .error (.UnknownHostGroup gname s.HostsFrom)
  else if containsKey st.services s.Name = true then
    .error (.DuplicateService gname s.Name)
  else
    .ok ⟨st.tree.emplace s.Name, st.services ++ [(s.Name, s)]⟩

/-- The `services` loop of `main.cpp` lines 86–120. -/
def compileServices (gname : String) (pool : List (String × List TServiceHost))
    (st : ServState) : List ServiceEntry → Except Diag ServState
  | [] => .ok st
  | e :: rest =>
    match processService gname pool st e with
    | .error d => .error d
    | .ok st' => compileServices gname pool st' rest

/-- Processing of one `deps` entry (`main.cpp` lines 125–145): fail when
`a == b`, fail when either endpoint is not a compiled service, otherwise
insert `b` into `tree[a]` and `a` into `reverseTree[b]`. -/
def processDep (gname : String) (services : List (String × TService))
    (st : SMap × SMap) (d : Dep) : Except Diag (SMap × SMap) :=
  if d.a = d.b then .error (.SelfDependency gname d.a)
  else if containsKey services d.a = false then
    .error (.UnknownService gname d.a)
  else if containsKey services d.b = false then
    .error (.UnknownService gname d.b)
  else
    .ok (st.1.insertVal d.a d.b, st.2.insertVal d.b d.a)

/-- The `deps` loop of `main.cpp` lines 125–146. -/
def compileDeps (gname : String) (services : List (String × TService))
    (st : SMap × SMap) : List Dep → Except Diag (SMap × SMap)
  | [] => .ok st
  | d :: rest =>
    match processDep gname services st d with
    | .error e => .error e
    | .ok st' => compileDeps gname services st' rest

/-- Canonical iteration order for a `Finset String`: `std::set` iterates its
strings in sorted order, and `unordered_map` iteration order is unspecified
(every loop the code runs over one is order-independent). -/
def iterOrder (s : Finset String) : List String :=
  s.sort (· ≤ ·)

/-- Body of `for (const auto& it1 : noDeps)` (`main.cpp` lines 167–177):
when `it1` is a key of `reverseTree`, erase `it1` from `tree.at(it2)` for
every reverse-adjacent `it2` and drop `reverseTree`'s entry; then erase
`it1` from `tree`. -/
def kahnBatchStep (p : SMap × SMap) (it1 : String) : SMap × SMap :=
  let p' :=
    if it1 ∈ p.2.keys then
      (((iterOrder (p.2.val it1)).foldl (fun t it2 => t.atErase it2 it1) p.1),
        p.2.eraseKey it1)
    else p
  (p'.1.eraseKey it1, p'.2)

/-- The Kahn validation loop of `main.cpp` lines 151–178: while the working
tree is non-empty, collect the keys with empty adjacency sets; if there are
none, report a dependency cycle (`false`); otherwise remove each collected
key (then loop).  Returns `true` exactly when the loop drains the working
tree to empty. -/
def kahnLoop (tree rtree : SMap) : Bool :=
  if h : tree.keys = ∅ then true
  else
    let noDeps := tree.keys.filter (fun k => tree.val k = ∅)
    if h2 : noDeps = ∅ then false
    else
      let p := (iterOrder noDeps).foldl kahnBatchStep (tree, rtree)
      kahnLoop p.1 p.2
termination_by tree.keys.card
decreasing_by
  have hstep : ∀ (p : SMap × SMap) (x : String),
      ((kahnBatchStep p x).1).keys = p.1.keys.erase x := by
    intro p x
    have hae : ∀ (l : List String) (t : SMap),
        (l.foldl (fun t it2 => t.atErase it2 x) t).keys = t.keys := by
      intro l
      induction l with
      | nil => intro t; rfl
      | cons c cs ih =>
        intro t
        rw [List.foldl_cons]
        exact ih (t.atErase c x)
    unfold kahnBatchStep
    by_cases h : x ∈ p.2.keys
    · simp only [h, if_pos, SMap.eraseKey, hae]
    · simp [h, SMap.eraseKey]
  have hfold : ∀ (l : List String) (p : SMap × SMap),
      ((l.foldl kahnBatchStep p).1).keys = l.foldl Finset.erase p.1.keys := by
    intro l
    induction l with
    | nil => intro p; rfl
    | cons c cs ih =>
      intro p
      rw [List.foldl_cons, List.foldl_cons, ih, hstep]
  have hsub : ∀ (l : List String) (s : Finset String),
      l.foldl Finset.erase s ⊆ s := by
    intro l
    induction l with
    | nil => intro s x hx; exact hx
    | cons c cs ih =>
      intro s x hx
      exact Finset.mem_of_mem_erase (ih (s.erase c) hx)
  rw [hfold]
  have hne : iterOrder noDeps ≠ [] := by
    intro hnil
    apply h2
    have hc := Finset.length_sort (α := String) (· ≤ ·) (s := noDeps)
    rw [iterOrder] at hnil
    rw [hnil] at hc
    exact Finset.card_eq_zero.mp hc.symm
  obtain ⟨x, t, hl⟩ := List.exists_cons_of_ne_nil hne
  have hx : x ∈ tree.keys := by
    have hmem : x ∈ iterOrder noDeps := by rw [hl]; exact List.mem_cons_self x t
    rw [iterOrder, Finset.mem_sort] at hmem
    exact Finset.mem_of_mem_filter x hmem
  rw [hl, List.foldl_cons]
  calc (List.foldl Finset.erase (tree.keys.erase x) t).card
      ≤ (tree.keys.erase x).card := Finset.card_le_card (hsub t _)
    _ < tree.keys.card := Finset.card_erase_lt_of_mem hx

/-- Compilation of one named graph (`main.cpp` lines 82–184): run the
services loop; when `deps` is present, run the deps loop, assign the
pre-validation `tree`/`reverseTree` snapshot to the compiled graph (the C++
assigns `compiledGraph.Tree = tree` by copy before the loop destroys the
locals), then run the Kahn validation; when `deps` is absent, the compiled
graph keeps the zero-initialized tree and a default-constructed reverse
tree. -/
def compileGraph (gname : String) (pool : List (String × List TServiceHost))
    (gc : GraphConf) : Except Diag TRouterDGraph :=
  match compileServices gname pool ⟨SMap.empty, []⟩ gc.services with
  | .error d => .error d
  | .ok st =>
    match gc.deps with
    | some ds =>
      match compileDeps gname st.services (st.tree, SMap.empty) ds with
      | .error d => .error d
      | .ok (tree, rtree) =>
        if kahnLoop tree rtree then .ok ⟨st.services, tree, rtree⟩
        else .error (.DependencyCycle gname)
    | none => .ok ⟨st.services, st.tree, SMap.empty⟩

/-- The `graphs` loop of `main.cpp` lines 81–185. -/
def compileGraphs (pool : List (String × List TServiceHost)) :
    List (String × GraphConf) → Except Diag (List (String × TRouterDGraph))
  | [] => .ok []
  | (gname, gc) :: rest =>
    match compileGraph gname pool gc with
    | .error d => .error d
    | .ok cg =>
      match compileGraphs pool rest with
      | .error d => .error d
      | .ok acc => .ok ((gname, cg) :: acc)

/-- The `routes` loop of `main.cpp` lines 189–191: `graphs.at(g)` throws an
uncaught `std::out_of_range` when `g` was not declared under `graphs`. -/
def checkRoutes (gs : List (String × TRouterDGraph)) :
    List RouteConf → Except Exc Unit
  | [] => .ok ()
  | rc :: rest =>
    if containsKey gs rc.g = true then checkRoutes gs rest
    else .error .outOfRange

/-- What `ParseConfig` (`main.cpp` lines 13–22) hands to the rest of
`RouterDMain`: a path that cannot be opened yields (after a `Failed to open`
stderr message) the JSON `null` value; a file that is not valid JSON makes
`nlohmann::json::parse` throw; otherwise the parsed document. -/
inductive ConfigSource where
  | unopenable
  | unparseable
  | parsed (doc : ConfigDoc)

/-- `RouterDMain` (`main.cpp` lines 41–207).  On an unopenable path the
JSON value is `null`, so `config["hosts"].get<unordered_map<...>>()` throws
`nlohmann::json::type_error` (uncaught); on an unparseable file
`json::parse` throws (uncaught); otherwise the hosts, graphs and routes
stages run in order, each diagnosed failure returning exit code 1, and
success reaches `TServer(...).Run()`. -/
def routerDMain : ConfigSource → Outcome
  | .unopenable => .thrown .typeError
  | .unparseable => .thrown .parseError
  | .parsed cfg =>
    match buildHosts cfg.hosts with
    | .error d => .exitError 1 d
    | .ok pool =>
      match compileGraphs pool cfg.graphs with
      | .error d => .exitError 1 d
      | .ok gs =>
        match checkRoutes gs cfg.routes with
        | .error e => .thrown e
        | .ok _ => .running gs pool

/-- Embedding of the in-progress bookkeeping of `TRouterDRequest`
(`src/routerd_lib/request.hpp` lines 58–79).  Only the
`std::unordered_set<std::string> InProgress` member participates in the
claims; the HTTP state inherited from `NHTTP::TRequest` and the outgoing
response belong to external collaborator modules. -/
structure TRouterDRequest where
  InProgress : Finset String

namespace TRouterDRequest

/-- `NewReply` (`request.hpp` lines 58–60): `InProgress.erase(name)`. -/
def NewReply (r : TRouterDRequest) (name : String) : TRouterDRequest :=
  ⟨r.InProgress.erase name⟩

/-- `NewRequest` (`request.hpp` lines 62–64): `InProgress.insert(name)`. -/
def NewRequest (r : TRouterDRequest) (name : String) : TRouterDRequest :=
  ⟨insert name r.InProgress⟩

/-- `InProgressCount` (`request.hpp` lines 66–68): `InProgress.size()`. -/
def InProgressCount (r : TRouterDRequest) : Nat :=
  r.InProgress.card

/-- `IsInProgress` (`request.hpp` lines 70–72):
`InProgress.count(name) > 0`. -/
def IsInProgress (r : TRouterDRequest) (name : String) : Bool :=
  name ∈ r.InProgress

end TRouterDRequest

/-- The names of a graph's service entries, in configuration order
(`service.Name` as computed by `main.cpp` lines 87–106). -/
def entryNames (es : List ServiceEntry) : List String :=
  es.map (fun e => (normalizeService e).Name)

/-- Folding `tree.emplace(name, {})` over a list of names (`main.cpp`
line 118, one call per service entry). -/
def emplaceFold (t : SMap) : List String → SMap
  | [] => t
  | n :: ns => emplaceFold (t.emplace n) ns

/-- Folding `tree[a].insert(b)` over a `deps` list (`main.cpp` line 144,
one call per dependency entry). -/
def buildTree (t : SMap) : List Dep → SMap
  | [] => t
  | d :: ds => buildTree (t.insertVal d.a d.b) ds

/-- Folding `reverseTree[b].insert(a)` over a `deps` list (`main.cpp`
line 145). -/
def buildRev (r : SMap) : List Dep → SMap
  | [] => r
  | d :: ds => buildRev (r.insertVal d.b d.a) ds

/-- Modelled from the spec: the authoritative pre-destruction `forward`
snapshot, following the claim's words — `forward[name]` initialized to the
empty set for every service, then `b` inserted into `forward[a]` for each
dependency `{a,b}`. -/
def specForward (names : List String) (ds : List Dep) : SMap :=
  buildTree (emplaceFold SMap.empty names) ds

/-- Modelled from the spec: the authoritative pre-destruction `reverse`
snapshot — `a` inserted into `reverse[b]` for each dependency `{a,b}`. -/
def specReverse (ds : List Dep) : SMap :=
  buildRev SMap.empty ds

/-- Whether an `Except` computation succeeded. -/
def exceptIsOk {ε α : Type} : Except ε α → Bool
  | .ok _ => true
  | .error _ => false

/-- The diagnostic of a failed compilation, `none` on success. -/
def errOf {α : Type} : Except Diag α → Option Diag
  | .ok _ => none
  | .error d => some d

/-- The `Tree` of a successful compilation (`SMap.empty` on failure). -/
def treeOf : Except Diag TRouterDGraph → SMap
  | .ok cg => cg.Tree
  | .error _ => SMap.empty

/-- The `ReverseTree` of a successful compilation. -/
def revTreeOf : Except Diag TRouterDGraph → SMap
  | .ok cg => cg.ReverseTree
  | .error _ => SMap.empty

/-- The `Services` of a successful compilation. -/
def servicesOf : Except Diag TRouterDGraph → List (String × TService)
  | .ok cg => cg.Services
  | .error _ => []

/-- The edge relation of an adjacency valuation `g` restricted to the node
set `K`: `x` depends on `y`. -/
def edgeWithin (g : String → Finset String) (K : Finset String)
    (x y : String) : Prop :=
  x ∈ K ∧ y ∈ K ∧ y ∈ g x

/-- The dependency relation built from a `deps` list: `x` depends on `y`
when some entry `{a := x, b := y}` occurs in the list. -/
def depRel (ds : List Dep) (x y : String) : Prop :=
  ∃ d ∈ ds, d.a = x ∧ d.b = y

/-- A relation contains a cycle when some node reaches itself in one or more
steps. -/
def hasCycle (r : String → String → Prop) : Prop :=
  ∃ x, Relation.TransGen r x x

/-- Every non-empty subset of `K` has a member with no successor inside the
subset.  For a finite relation this is equivalent to acyclicity, and it is
the invariant Kahn's algorithm decides. -/
def sinkProp (g : String → Finset String) (K : Finset String) : Prop :=
  ∀ M ⊆ K, M.Nonempty → ∃ m ∈ M, g m ∩ M = ∅

/-- The reverse adjacency of ground valuation `g` over node universe `K0`. -/
def revOf (g : String → Finset String) (K0 : Finset String)
    (b : String) : Finset String :=
  K0.filter (fun a => b ∈ g a)

/-- Abstract form of the Kahn validation loop: the working set of remaining
keys, with the adjacency of `k` always equal to `g k ∩ K`. -/
def kahnAbs (g : String → Finset String) (K : Finset String) : Bool :=
  if K = ∅ then true
  else if h2 : K.filter (fun k => g k ∩ K = ∅) = ∅ then false
  else kahnAbs g (K \ K.filter (fun k => g k ∩ K = ∅))
termination_by K.card
decreasing_by
  apply Finset.card_lt_card
  apply Finset.sdiff_ssubset (Finset.filter_subset _ _)
  exact Finset.nonempty_iff_ne_empty.mpr h2

/-- The relation between a concrete Kahn working state `(tr, rt)` and the
abstract remaining key set `K`, over ground adjacency `g` and node universe
`K0` (the invariant of the loop of `main.cpp` lines 151–178). -/
structure KahnInv (g : String → Finset String) (K0 : Finset String)
    (tr rt : SMap) (K : Finset String) : Prop where
  keys_eq : tr.keys = K
  sub : K ⊆ K0
  trval : ∀ a, tr.val a = if a ∈ K then g a ∩ K else ∅
  rtval : ∀ b, rt.val b = if b ∈ K then revOf g K0 b else ∅
  rtkeys : rt.keys = K.filter (fun b => revOf g K0 b ≠ ∅)


/-- The normalized `(name, service)` pairs a list of entries appends to
`Services` (`main.cpp` line 119). -/
def svcAssoc (es : List ServiceEntry) : List (String × TService) :=
  es.map (fun e => ((normalizeService e).Name, normalizeService e))

/-- A `deps` entry that passes the three per-entry checks of `main.cpp`
lines 129–142 against the services map `svc`. -/
def depValid (svc : List (String × TService)) (d : Dep) : Prop :=
  d.a ≠ d.b ∧ containsKey svc d.a = true ∧ containsKey svc d.b = true

theorem containsKey_iff {α : Type} (l : List (String × α)) (k : String) :
    containsKey l k = true ↔ ∃ p ∈ l, p.1 = k := by
  simp [containsKey, List.any_eq_true]

theorem containsKey_append {α : Type} (l1 l2 : List (String × α)) (k : String) :
    containsKey (l1 ++ l2) k = (containsKey l1 k || containsKey l2 k) := by
  simp [containsKey, List.any_append]

theorem containsKey_svcAssoc (es : List ServiceEntry) (k : String) :
    containsKey (svcAssoc es) k = true ↔ k ∈ entryNames es := by
  rw [containsKey_iff]
  constructor
  · rintro ⟨p, hp, hk⟩
    rw [svcAssoc, List.mem_map] at hp
    obtain ⟨e, he, hpe⟩ := hp
    rw [entryNames, List.mem_map]
    exact ⟨e, he, by rw [← hpe] at hk; exact hk⟩
  · intro hk
    rw [entryNames, List.mem_map] at hk
    obtain ⟨e, he, hne⟩ := hk
    exact ⟨((normalizeService e).Name, normalizeService e),
      List.mem_map_of_mem _ he, hne⟩

theorem insertVal_val (m : SMap) (k v a : String) :
    (m.insertVal k v).val a =
      if a = k then insert v (m.val a) else m.val a := by
  by_cases h : a = k
  · subst h; simp [SMap.insertVal, Function.update]
  · simp [SMap.insertVal, Function.update, h]

theorem insertVal_mem_keys (m : SMap) (k v a : String) :
    a ∈ (m.insertVal k v).keys ↔ a = k ∨ a ∈ m.keys := by
  simp [SMap.insertVal]

theorem emplace_mem_keys (m : SMap) (k a : String) :
    a ∈ (m.emplace k).keys ↔ a = k ∨ a ∈ m.keys := by
  unfold SMap.emplace
  by_cases h : k ∈ m.keys
  · simp only [h, if_pos]
    constructor
    · exact fun ha => Or.inr ha
    · rintro (ha | ha)
      · exact ha ▸ h
      · exact ha
  · simp [h]

theorem emplace_val_empty (m : SMap) (k : String)
    (h : ∀ a, m.val a = ∅) (a : String) : (m.emplace k).val a = ∅ := by
  unfold SMap.emplace
  by_cases hk : k ∈ m.keys
  · simp [hk, h a]
  · simp only [hk, if_neg]
    by_cases ha : a = k
    · subst ha; simp [Function.update]
    · simp [Function.update, ha, h a]

theorem emplaceFold_mem_keys (names : List String) (t : SMap) (a : String) :
    a ∈ (emplaceFold t names).keys ↔ a ∈ t.keys ∨ a ∈ names := by
  induction names generalizing t with
  | nil => simp [emplaceFold]
  | cons c cs ih =>
    rw [emplaceFold, ih (t.emplace c)]
    rw [emplace_mem_keys]
    simp only [List.mem_cons]
    tauto

theorem emplaceFold_val (names : List String) (t : SMap)
    (h : ∀ a, t.val a = ∅) (a : String) :
    (emplaceFold t names).val a = ∅ := by
  induction names generalizing t with
  | nil => exact h a
  | cons c cs ih =>
    rw [emplaceFold]
    exact ih (t.emplace c) (emplace_val_empty t c h) 

theorem buildTree_mem_val (ds : List Dep) (t : SMap) (a b : String) :
    b ∈ (buildTree t ds).val a ↔
      b ∈ t.val a ∨ ∃ d ∈ ds, d.a = a ∧ d.b = b := by
  induction ds generalizing t with
  | nil => simp [buildTree]
  | cons d ds ih =>
    rw [buildTree, ih, insertVal_val]
    by_cases hda : a = d.a
    · rw [if_pos hda]
      simp only [Finset.mem_insert, List.mem_cons]
      constructor
      · rintro ((hb | hb) | ⟨d', hd', h1, h2⟩)
        · exact Or.inr ⟨d, Or.inl rfl, hda.symm, hb.symm⟩
        · exact Or.inl hb
        · exact Or.inr ⟨d', Or.inr hd', h1, h2⟩
      · rintro (hb | ⟨d', (hd' | hd'), h1, h2⟩)
        · exact Or.inl (Or.inr hb)
        · exact Or.inl (Or.inl (by rw [hd'] at h2; exact h2.symm))
        · exact Or.inr ⟨d', hd', h1, h2⟩
    · rw [if_neg hda]
      simp only [List.mem_cons]
      constructor
      · rintro (hb | ⟨d', hd', h1, h2⟩)
        · exact Or.inl hb
        · exact Or.inr ⟨d', Or.inr hd', h1, h2⟩
      · rintro (hb | ⟨d', (hd' | hd'), h1, h2⟩)
        · exact Or.inl hb
        · exact absurd (hd' ▸ h1 : d.a = a) (fun hh => hda hh.symm)
        · exact Or.inr ⟨d', hd', h1, h2⟩

theorem buildTree_mem_keys (ds : List Dep) (t : SMap) (a : String) :
    a ∈ (buildTree t ds).keys ↔ a ∈ t.keys ∨ ∃ d ∈ ds, d.a = a := by
  induction ds generalizing t with
  | nil => simp [buildTree]
  | cons d ds ih =>
    rw [buildTree, ih, insertVal_mem_keys]
    simp only [List.mem_cons]
    constructor
    · rintro ((h | h) | ⟨d', hd', h1⟩)
      · exact Or.inr ⟨d, Or.inl rfl, h.symm⟩
      · exact Or.inl h
      · exact Or.inr ⟨d', Or.inr hd', h1⟩
    · rintro (h | ⟨d', (hd' | hd'), h1⟩)
      · exact Or.inl (Or.inr h)
      · exact Or.inl (Or.inl (by rw [hd'] at h1; exact h1.symm))
      · exact Or.inr ⟨d', hd', h1⟩

theorem buildRev_mem_val (ds : List Dep) (r : SMap) (a b : String) :
    a ∈ (buildRev r ds).val b ↔
      a ∈ r.val b ∨ ∃ d ∈ ds, d.a = a ∧ d.b = b := by
  induction ds generalizing r with
  | nil => simp [buildRev]
  | cons d ds ih =>
    rw [buildRev, ih, insertVal_val]
    by_cases hdb : b = d.b
    · rw [if_pos hdb]
      simp only [Finset.mem_insert, List.mem_cons]
      constructor
      · rintro ((ha | ha) | ⟨d', hd', h1, h2⟩)
        · exact Or.inr ⟨d, Or.inl rfl, ha.symm, hdb.symm⟩
        · exact Or.inl ha
        · exact Or.inr ⟨d', Or.inr hd', h1, h2⟩
      · rintro (ha | ⟨d', (hd' | hd'), h1, h2⟩)
        · exact Or.inl (Or.inr ha)
        · exact Or.inl (Or.inl (by rw [hd'] at h1; exact h1.symm))
        · exact Or.inr ⟨d', hd', h1, h2⟩
    · rw [if_neg hdb]
      simp only [List.mem_cons]
      constructor
      · rintro (ha | ⟨d', hd', h1, h2⟩)
        · exact Or.inl ha
        · exact Or.inr ⟨d', Or.inr hd', h1, h2⟩
      · rintro (ha | ⟨d', (hd' | hd'), h1, h2⟩)
        · exact Or.inl ha
        · exact absurd (hd' ▸ h2 : d.b = b) (fun hh => hdb hh.symm)
        · exact Or.inr ⟨d', hd', h1, h2⟩

theorem buildRev_mem_keys (ds : List Dep) (r : SMap) (b : String) :
    b ∈ (buildRev r ds).keys ↔ b ∈ r.keys ∨ ∃ d ∈ ds, d.b = b := by
  induction ds generalizing r with
  | nil => simp [buildRev]
  | cons d ds ih =>
    rw [buildRev, ih, insertVal_mem_keys]
    simp only [List.mem_cons]
    constructor
    · rintro ((h | h) | ⟨d', hd', h1⟩)
      · exact Or.inr ⟨d, Or.inl rfl, h.symm⟩
      · exact Or.inl h
      · exact Or.inr ⟨d', Or.inr hd', h1⟩
    · rintro (h | ⟨d', (hd' | hd'), h1⟩)
      · exact Or.inl (Or.inr h)
      · exact Or.inl (Or.inl (by rw [hd'] at h1; exact h1.symm))
      · exact Or.inr ⟨d', hd', h1⟩

theorem processService_ok (gname : String)
    (pool : List (String × List TServiceHost)) (st st' : ServState)
    (e : ServiceEntry) (h : processService gname pool st e = .ok st') :
    containsKey pool (normalizeService e).HostsFrom = true ∧
    containsKey st.services (normalizeService e).Name = false ∧
    st' = ⟨st.tree.emplace (normalizeService e).Name,
      st.services ++ [((normalizeService e).Name, normalizeService e)]⟩ := by
  unfold processService at h
  by_cases h1 : containsKey pool (normalizeService e).HostsFrom = false
  · rw [if_pos h1] at h; exact absurd h (by simp)
  · rw [if_neg h1] at h
    by_cases h2 : containsKey st.services (normalizeService e).Name = true
    · rw [if_pos h2] at h; exact absurd h (by simp)
    · rw [if_neg h2] at h
      refine ⟨by simpa using h1, by simpa using h2, ?_⟩
      exact (Except.ok.injEq _ _ ▸ h).symm

theorem compileServices_append (gname : String)
    (pool : List (String × List TServiceHost)) (st : ServState)
    (l1 l2 : List ServiceEntry) :
    compileServices gname pool st (l1 ++ l2) =
      (compileServices gname pool st l1).bind
        (fun st' => compileServices gname pool st' l2) := by
  induction l1 generalizing st with
  | nil => simp [compileServices, Except.bind]
  | cons e l1 ih =>
    rw [List.cons_append, compileServices, compileServices]
    cases processService gname pool st e with
    | error d => simp [Except.bind]
    | ok st1 => exact ih st1

theorem compileServices_ok (gname : String)
    (pool : List (String × List TServiceHost)) (st : ServState)
    (es : List ServiceEntry) (st' : ServState)
    (h : compileServices gname pool st es = .ok st') :
    st'.tree = emplaceFold st.tree (entryNames es) ∧
    st'.services = st.services ++ svcAssoc es := by
  induction es generalizing st with
  | nil =>
    rw [compileServices] at h
    injection h with h
    subst h
    simp [entryNames, svcAssoc, emplaceFold]
  | cons e es ih =>
    rw [compileServices] at h
    cases hp : processService gname pool st e with
    | error d => rw [hp] at h; exact absurd h (by simp)
    | ok st1 =>
      rw [hp] at h
      obtain ⟨_, _, hst1⟩ := processService_ok gname pool st st1 e hp
      obtain ⟨ht, hs⟩ := ih st1 h
      subst hst1
      constructor
      · rw [ht]
        rfl
      · rw [hs]
        simp [svcAssoc, entryNames]

theorem processDep_ok_iff (gname : String) (svc : List (String × TService))
    (st st' : SMap × SMap) (d : Dep) :
    processDep gname svc st d = .ok st' ↔
      depValid svc d ∧
      st' = (st.1.insertVal d.a d.b, st.2.insertVal d.b d.a) := by
  unfold processDep depValid
  by_cases h1 : d.a = d.b
  · simp [h1]
  · rw [if_neg h1]
    by_cases h2 : containsKey svc d.a = true
    · have h2' : ¬ (containsKey svc d.a = false) := by simp [h2]
      rw [if_neg h2']
      by_cases h3 : containsKey svc d.b = true
      · have h3' : ¬ (containsKey svc d.b = false) := by simp [h3]
        rw [if_neg h3']
        constructor
        · intro h
          injection h with h
          exact ⟨⟨h1, h2, h3⟩, h.symm⟩
        · rintro ⟨_, h⟩
          rw [h]
      · have h3' : containsKey svc d.b = false := by
          cases hcb : containsKey svc d.b
          · rfl
          · exact absurd hcb h3
        rw [if_pos h3']
        constructor
        · intro h
          exact absurd h (by simp)
        · rintro ⟨⟨_, _, hb⟩, _⟩
          exact absurd hb h3
    · have h2' : containsKey svc d.a = false := by
        cases hca : containsKey svc d.a
        · rfl
        · exact absurd hca h2
      rw [if_pos h2']
      constructor
      · intro h
        exact absurd h (by simp)
      · rintro ⟨⟨_, ha, _⟩, _⟩
        exact absurd ha h2

theorem compileDeps_append (gname : String) (svc : List (String × TService))
    (st : SMap × SMap) (l1 l2 : List Dep) :
    compileDeps gname svc st (l1 ++ l2) =
      (compileDeps gname svc st l1).bind
        (fun st' => compileDeps gname svc st' l2) := by
  induction l1 generalizing st with
  | nil => simp [compileDeps, Except.bind]
  | cons d l1 ih =>
    rw [List.cons_append, compileDeps, compileDeps]
    cases processDep gname svc st d with
    | error e => simp [Except.bind]
    | ok st1 => exact ih st1

theorem compileDeps_ok_of_valid (gname : String)
    (svc : List (String × TService)) (t r : SMap) (ds : List Dep)
    (h : ∀ d ∈ ds, depValid svc d) :
    compileDeps gname svc (t, r) ds = .ok (buildTree t ds, buildRev r ds) := by
  induction ds generalizing t r with
  | nil => simp [compileDeps, buildTree, buildRev]
  | cons d ds ih =>
    rw [compileDeps, buildTree, buildRev]
    have hd : processDep gname svc (t, r) d =
        .ok (t.insertVal d.a d.b, r.insertVal d.b d.a) :=
      (processDep_ok_iff gname svc (t, r) _ d).mpr
        ⟨h d (List.mem_cons_self d ds), rfl⟩
    rw [hd]
    exact ih (t.insertVal d.a d.b) (r.insertVal d.b d.a)
      (fun d' hd' => h d' (List.mem_cons_of_mem d hd'))

theorem compileDeps_ok_elim (gname : String)
    (svc : List (String × TService)) (t r : SMap) (ds : List Dep)
    (out : SMap × SMap) (h : compileDeps gname svc (t, r) ds = .ok out) :
    (∀ d ∈ ds, depValid svc d) ∧
    out = (buildTree t ds, buildRev r ds) := by
  induction ds generalizing t r with
  | nil =>
    rw [compileDeps] at h
    injection h with h
    exact ⟨by simp, by rw [buildTree, buildRev, h]⟩
  | cons d ds ih =>
    rw [compileDeps] at h
    cases hp : processDep gname svc (t, r) d with
    | error e => rw [hp] at h; exact absurd h (by simp)
    | ok st1 =>
      rw [hp] at h
      obtain ⟨hv, hst1⟩ := (processDep_ok_iff gname svc (t, r) st1 d).mp hp
      subst hst1
      obtain ⟨hall, hout⟩ := ih (t.insertVal d.a d.b) (r.insertVal d.b d.a) h
      refine ⟨?_, by rw [buildTree, buildRev]; exact hout⟩
      intro d' hd'
      rcases List.mem_cons.mp hd' with hd' | hd'
      · exact hd' ▸ hv
      · exact hall d' hd'

theorem hasCycle_congr {r s : String → String → Prop}
    (h : ∀ x y, r x y ↔ s x y) : hasCycle r ↔ hasCycle s := by
  constructor
  · rintro ⟨x, hx⟩
    exact ⟨x, Relation.TransGen.mono (fun a b => (h a b).mp) hx⟩
  · rintro ⟨x, hx⟩
    exact ⟨x, Relation.TransGen.mono (fun a b => (h a b).mpr) hx⟩

theorem not_hasCycle_of_no_edge {r : String → String → Prop}
    (h : ∀ x y, ¬ r x y) : ¬ hasCycle r := by
  rintro ⟨x, hx⟩
  obtain ⟨b, hxb, _⟩ := Relation.TransGen.head'_iff.mp hx
  exact h x b hxb

theorem sinkProp_empty (g : String → Finset String) : sinkProp g ∅ := by
  intro M hM hne
  rw [Finset.subset_empty] at hM
  rw [hM] at hne
  exact absurd hne (by simp)

theorem kahnAbs_eq_true_iff (g : String → Finset String) (K : Finset String) :
    kahnAbs g K = true ↔ sinkProp g K := by
  induction K using Finset.strongInduction with
  | _ K ih =>
    rw [kahnAbs]
    by_cases hK : K = ∅
    · rw [if_pos hK]
      subst hK
      simp [sinkProp_empty g]
    · rw [if_neg hK]
      by_cases h2 : K.filter (fun k => g k ∩ K = ∅) = ∅
      · rw [dif_pos h2]
        constructor
        · intro hh
          exact absurd hh (by simp)
        · intro hs
          exfalso
          obtain ⟨m, hmK, hsink⟩ :=
            hs K (subset_refl K) (Finset.nonempty_iff_ne_empty.mpr hK)
          have hmf : m ∈ K.filter (fun k => g k ∩ K = ∅) :=
            Finset.mem_filter.mpr ⟨hmK, hsink⟩
          rw [h2] at hmf
          exact absurd hmf (Finset.not_mem_empty m)
      · rw [dif_neg h2]
        have hss : K \ K.filter (fun k => g k ∩ K = ∅) ⊂ K :=
          Finset.sdiff_ssubset (Finset.filter_subset _ _)
            (Finset.nonempty_iff_ne_empty.mpr h2)
        rw [ih _ hss]
        constructor
        · intro hs M hMK hMne
          by_cases hint : (M ∩ K.filter (fun k => g k ∩ K = ∅)).Nonempty
          · obtain ⟨m, hm⟩ := hint
            have hmM := (Finset.mem_inter.mp hm).1
            have hsink := (Finset.mem_filter.mp (Finset.mem_inter.mp hm).2).2
            refine ⟨m, hmM, ?_⟩
            apply Finset.eq_empty_of_forall_not_mem
            intro x hx
            have hx' : x ∈ g m ∩ K := Finset.mem_inter.mpr
              ⟨(Finset.mem_inter.mp hx).1, hMK (Finset.mem_inter.mp hx).2⟩
            rw [hsink] at hx'
            exact absurd hx' (Finset.not_mem_empty x)
          · refine hs M ?_ hMne
            intro x hx
            rw [Finset.mem_sdiff]
            refine ⟨hMK hx, fun hxf => ?_⟩
            exact hint ⟨x, Finset.mem_inter.mpr ⟨hx, hxf⟩⟩
        · intro hs M hMK hMne
          exact hs M (hMK.trans Finset.sdiff_subset) hMne

theorem sinkProp_not_hasCycle (g : String → Finset String) (K : Finset String)
    (hs : sinkProp g K) : ¬ hasCycle (edgeWithin g K) := by
  rintro ⟨x, hx⟩
  classical
  set M := K.filter (fun y => Relation.TransGen (edgeWithin g K) x y ∧
    Relation.TransGen (edgeWithin g K) y x) with hMdef
  have hxK : x ∈ K := by
    obtain ⟨b, hxb, _⟩ := Relation.TransGen.head'_iff.mp hx
    exact hxb.1
  have hxM : x ∈ M := by
    rw [hMdef, Finset.mem_filter]
    exact ⟨hxK, hx, hx⟩
  obtain ⟨m, hmM, hsink⟩ := hs M (Finset.filter_subset _ _) ⟨x, hxM⟩
  have hmK := (Finset.mem_filter.mp hmM).1
  have hxm : Relation.TransGen (edgeWithin g K) x m :=
    (Finset.mem_filter.mp hmM).2.1
  have hmx : Relation.TransGen (edgeWithin g K) m x :=
    (Finset.mem_filter.mp hmM).2.2
  obtain ⟨z, hmz, hzx⟩ := Relation.TransGen.head'_iff.mp hmx
  have hzM : z ∈ M := by
    rw [hMdef, Finset.mem_filter]
    exact ⟨hmz.2.1, hxm.tail hmz, Relation.TransGen.trans_right hzx hx⟩
  have hzg : z ∈ g m ∩ M := Finset.mem_inter.mpr ⟨hmz.2.2, hzM⟩
  rw [hsink] at hzg
  exact absurd hzg (Finset.not_mem_empty z)

theorem not_hasCycle_sinkProp (g : String → Finset String) (K : Finset String)
    (hnc : ¬ hasCycle (edgeWithin g K)) : sinkProp g K := by
  intro M hMK hMne
  by_contra hno
  push_neg at hno
  apply hnc
  have hsucc : ∀ m : {x // x ∈ M}, ∃ z : {x // x ∈ M}, z.1 ∈ g m.1 := by
    intro m
    have hne : (g m.1 ∩ M).Nonempty :=
      Finset.nonempty_iff_ne_empty.mpr (hno m.1 m.2)
    obtain ⟨z, hz⟩ := hne
    exact ⟨⟨z, (Finset.mem_inter.mp hz).2⟩, (Finset.mem_inter.mp hz).1⟩
  classical
  choose F hF using hsucc
  have hedge : ∀ m : {x // x ∈ M}, edgeWithin g K m.1 (F m).1 :=
    fun m => ⟨hMK m.2, hMK (F m).2, hF m⟩
  have hiter : ∀ (n : ℕ) (z : {x // x ∈ M}),
      Relation.TransGen (edgeWithin g K) z.1 ((F^[n + 1]) z).1 := by
    intro n
    induction n with
    | zero => intro z; exact Relation.TransGen.single (hedge z)
    | succ n ihn =>
      intro z
      rw [Function.iterate_succ_apply']
      exact (ihn z).tail (hedge _)
  obtain ⟨z0, hz0⟩ := hMne
  have main : ∀ (m n : ℕ), m < n →
      F^[m] ⟨z0, hz0⟩ = F^[n] ⟨z0, hz0⟩ →
      ∃ x, Relation.TransGen (edgeWithin g K) x x := by
    intro m n hmn hfe
    have hsplit : F^[n] ⟨z0, hz0⟩ = F^[n - m] (F^[m] ⟨z0, hz0⟩) := by
      rw [← Function.iterate_add_apply]
      congr 1
      omega
    have hd : n - m - 1 + 1 = n - m := by omega
    have hcyc := hiter (n - m - 1) (F^[m] ⟨z0, hz0⟩)
    rw [hd, ← hsplit, ← hfe] at hcyc
    exact ⟨(F^[m] ⟨z0, hz0⟩).1, hcyc⟩
  obtain ⟨i, j, hij, heq⟩ := Fintype.exists_ne_map_eq_of_card_lt
    (fun i : Fin (Fintype.card {x // x ∈ M} + 1) => F^[i.1] ⟨z0, hz0⟩)
    (by simp)
  rcases lt_or_gt_of_ne (fun hv => hij (Fin.val_injective hv)) with hlt | hgt
  · exact main i.1 j.1 hlt heq
  · exact main j.1 i.1 hgt heq.symm

theorem kahnAbs_eq_true_iff_acyclic (g : String → Finset String)
    (K : Finset String) :
    kahnAbs g K = true ↔ ¬ hasCycle (edgeWithin g K) := by
  rw [kahnAbs_eq_true_iff]
  exact ⟨sinkProp_not_hasCycle g K, not_hasCycle_sinkProp g K⟩

theorem foldl_atErase_val (x : String) (l : List String) (t : SMap)
    (a : String) :
    (l.foldl (fun t it2 => t.atErase it2 x) t).val a =
      if a ∈ l then (t.val a).erase x else t.val a := by
  induction l generalizing t with
  | nil => simp
  | cons c cs ih =>
    rw [List.foldl_cons, ih]
    by_cases hac : a = c
    · subst hac
      by_cases hcs : a ∈ cs <;>
        simp [hcs, SMap.atErase, Function.update, Finset.erase_idem]
    · by_cases hcs : a ∈ cs <;>
        simp [hcs, hac, SMap.atErase, Function.update]

theorem foldl_atErase_keys (x : String) (l : List String) (t : SMap) :
    (l.foldl (fun t it2 => t.atErase it2 x) t).keys = t.keys := by
  induction l generalizing t with
  | nil => rfl
  | cons c cs ih =>
    rw [List.foldl_cons]
    exact ih (t.atErase c x)

theorem inter_eq_inter_erase_of_not_mem (s t : Finset String) (a : String)
    (h : a ∉ s) : s ∩ t = s ∩ t.erase a := by
  ext x
  simp only [Finset.mem_inter, Finset.mem_erase]
  constructor
  · rintro ⟨hxs, hxt⟩
    exact ⟨hxs, fun hxa => h (hxa ▸ hxs), hxt⟩
  · rintro ⟨hxs, _, hxt⟩
    exact ⟨hxs, hxt⟩

theorem kahnBatchStep_inv (g : String → Finset String) (K0 : Finset String)
    (tr rt : SMap) (K : Finset String) (h : String)
    (hInv : KahnInv g K0 tr rt K) (hh : h ∈ K) :
    KahnInv g K0 (kahnBatchStep (tr, rt) h).1 (kahnBatchStep (tr, rt) h).2
      (K.erase h) := by
  obtain ⟨hkeys, hsub, htrval, hrtval, hrtkeys⟩ := hInv
  have hguard : h ∈ rt.keys ↔ revOf g K0 h ≠ ∅ := by
    rw [hrtkeys, Finset.mem_filter]
    simp [hh]
  unfold kahnBatchStep
  by_cases hg : h ∈ rt.keys
  · have hrev : rt.val h = revOf g K0 h := by rw [hrtval h, if_pos hh]
    simp only [hg, if_pos]
    refine ⟨?_, ?_, ?_, ?_, ?_⟩
    · show (SMap.eraseKey _ h).keys = K.erase h
      simp only [SMap.eraseKey, foldl_atErase_keys, hkeys]
    · exact (Finset.erase_subset h K).trans hsub
    · intro a
      show Function.update _ h ∅ a = _
      by_cases hah : a = h
      · subst hah
        rw [Function.update_same, if_neg (Finset.not_mem_erase a K)]
      · rw [Function.update_noteq hah, foldl_atErase_val]
        have hmem : a ∈ iterOrder (rt.val h) ↔ a ∈ revOf g K0 h := by
          rw [iterOrder, Finset.mem_sort, hrev]
        by_cases haK : a ∈ K
        · have haKe : a ∈ K.erase h := Finset.mem_erase.mpr ⟨hah, haK⟩
          rw [if_pos haKe, htrval a, if_pos haK]
          by_cases har : a ∈ iterOrder (rt.val h)
          · rw [if_pos har, Finset.inter_erase]
          · rw [if_neg har]
            have hga : h ∉ g a := by
              intro hhg
              exact har (hmem.mpr (Finset.mem_filter.mpr ⟨hsub haK, hhg⟩))
            exact inter_eq_inter_erase_of_not_mem (g a) K h hga
        · have haKe : a ∉ K.erase h := fun hx => haK (Finset.mem_of_mem_erase hx)
          rw [if_neg haKe, htrval a, if_neg haK]
          by_cases har : a ∈ iterOrder (rt.val h)
          · rw [if_pos har, Finset.erase_empty]
          · rw [if_neg har]
    · intro b
      show Function.update rt.val h ∅ b = _
      by_cases hbh : b = h
      · subst hbh
        rw [Function.update_same, if_neg (Finset.not_mem_erase b K)]
      · rw [Function.update_noteq hbh, hrtval b]
        by_cases hbK : b ∈ K
        · rw [if_pos hbK, if_pos (Finset.mem_erase.mpr ⟨hbh, hbK⟩)]
        · rw [if_neg hbK, if_neg (fun hx => hbK (Finset.mem_of_mem_erase hx))]
    · show rt.keys.erase h = _
      rw [hrtkeys, Finset.filter_erase]
  · have hrev0 : revOf g K0 h = ∅ := by
      by_contra hne
      exact hg (hguard.mpr hne)
    rw [if_neg hg]
    refine ⟨?_, ?_, ?_, ?_, ?_⟩
    · show (tr.eraseKey h).keys = K.erase h
      simp only [SMap.eraseKey, hkeys]
    · exact (Finset.erase_subset h K).trans hsub
    · intro a
      show Function.update tr.val h ∅ a = _
      by_cases hah : a = h
      · subst hah
        rw [Function.update_same, if_neg (Finset.not_mem_erase a K)]
      · rw [Function.update_noteq hah, htrval a]
        by_cases haK : a ∈ K
        · rw [if_pos haK, if_pos (Finset.mem_erase.mpr ⟨hah, haK⟩)]
          have hga : h ∉ g a := by
            intro hhg
            have : a ∈ revOf g K0 h := Finset.mem_filter.mpr ⟨hsub haK, hhg⟩
            rw [hrev0] at this
            exact absurd this (Finset.not_mem_empty a)
          exact inter_eq_inter_erase_of_not_mem (g a) K h hga
        · rw [if_neg haK, if_neg (fun hx => haK (Finset.mem_of_mem_erase hx))]
    · intro b
      show rt.val b = _
      by_cases hbh : b = h
      · subst hbh
        rw [hrtval b, if_pos hh, hrev0, if_neg (Finset.not_mem_erase b K)]
      · rw [hrtval b]
        by_cases hbK : b ∈ K
        · rw [if_pos hbK, if_pos (Finset.mem_erase.mpr ⟨hbh, hbK⟩)]
        · rw [if_neg hbK, if_neg (fun hx => hbK (Finset.mem_of_mem_erase hx))]
    · show rt.keys = _
      rw [hrtkeys, Finset.filter_erase]
      rw [Finset.erase_eq_of_not_mem]
      intro hmem
      exact absurd ((Finset.mem_filter.mp hmem).2) (by simp [hrev0])

theorem foldl_kahnBatchStep_inv (g : String → Finset String)
    (K0 : Finset String) (l : List String) :
    ∀ (tr rt : SMap) (K : Finset String), l.Nodup → (∀ x ∈ l, x ∈ K) →
      KahnInv g K0 tr rt K →
      KahnInv g K0 (l.foldl kahnBatchStep (tr, rt)).1
        (l.foldl kahnBatchStep (tr, rt)).2 (K \ l.toFinset) := by
  induction l with
  | nil =>
    intro tr rt K _ _ hInv
    simpa using hInv
  | cons c cs ih =>
    intro tr rt K hnd hmem hInv
    rw [List.foldl_cons]
    have hstep := kahnBatchStep_inv g K0 tr rt K c hInv
      (hmem c (List.mem_cons_self c cs))
    have hpair : kahnBatchStep (tr, rt) c =
        ((kahnBatchStep (tr, rt) c).1, (kahnBatchStep (tr, rt) c).2) := rfl
    rw [hpair]
    have hres := ih (kahnBatchStep (tr, rt) c).1 (kahnBatchStep (tr, rt) c).2
      (K.erase c) (List.nodup_cons.mp hnd).2
      (fun x hx => Finset.mem_erase.mpr
        ⟨fun hxc => (List.nodup_cons.mp hnd).1 (hxc ▸ hx),
          hmem x (List.mem_cons_of_mem c hx)⟩)
      hstep
    have hkeq : K.erase c \ cs.toFinset = K \ (c :: cs).toFinset := by
      ext x
      simp only [Finset.mem_sdiff, Finset.mem_erase, List.toFinset_cons,
        Finset.mem_insert, not_or]
      tauto
    rw [hkeq] at hres
    exact hres

theorem kahnLoop_eq_kahnAbs (g : String → Finset String) (K0 : Finset String) :
    ∀ (K : Finset String) (tr rt : SMap), KahnInv g K0 tr rt K →
      kahnLoop tr rt = kahnAbs g K := by
  intro K
  induction K using Finset.strongInduction with
  | _ K ih =>
    intro tr rt hInv
    have hkeys := hInv.keys_eq
    have htrval := hInv.trval
    rw [kahnLoop, kahnAbs]
    by_cases hK : K = ∅
    · rw [dif_pos (hkeys.trans hK), if_pos hK]
    · rw [dif_neg (fun hh => hK (hkeys.symm.trans hh)), if_neg hK]
      have hfilter : tr.keys.filter (fun k => tr.val k = ∅) =
          K.filter (fun k => g k ∩ K = ∅) := by
        rw [hkeys]
        apply Finset.filter_congr
        intro k hk
        rw [htrval k, if_pos hk]
      by_cases h2 : K.filter (fun k => g k ∩ K = ∅) = ∅
      · rw [dif_pos (hfilter.trans h2), dif_pos h2]
      · rw [dif_neg (fun hh => h2 (hfilter.symm.trans hh)), dif_neg h2]
        have hss : K \ K.filter (fun k => g k ∩ K = ∅) ⊂ K :=
          Finset.sdiff_ssubset (Finset.filter_subset _ _)
            (Finset.nonempty_iff_ne_empty.mpr h2)
        have hbatch := foldl_kahnBatchStep_inv g K0
          (iterOrder (tr.keys.filter (fun k => tr.val k = ∅))) tr rt K
          (by rw [iterOrder]; exact Finset.sort_nodup _ _)
          (by
            intro x hx
            rw [iterOrder, Finset.mem_sort, hfilter] at hx
            exact Finset.mem_of_mem_filter x hx)
          hInv
        have htf : (iterOrder (tr.keys.filter (fun k => tr.val k = ∅))).toFinset
            = K.filter (fun k => g k ∩ K = ∅) := by
          rw [iterOrder, Finset.sort_toFinset, hfilter]
        rw [htf] at hbatch
        exact ih _ hss _ _ hbatch

theorem emplaceFold_empty_mem_keys (names : List String) (a : String) :
    a ∈ (emplaceFold SMap.empty names).keys ↔ a ∈ names := by
  rw [emplaceFold_mem_keys]
  simp [SMap.empty]

theorem buildTree_empty_mem_val (names : List String) (ds : List Dep)
    (a b : String) :
    b ∈ (buildTree (emplaceFold SMap.empty names) ds).val a ↔
      ∃ d ∈ ds, d.a = a ∧ d.b = b := by
  rw [buildTree_mem_val]
  rw [emplaceFold_val names SMap.empty (fun _ => rfl) a]
  simp

theorem buildRev_empty_mem_val (ds : List Dep) (a b : String) :
    a ∈ (buildRev SMap.empty ds).val b ↔ ∃ d ∈ ds, d.a = a ∧ d.b = b := by
  rw [buildRev_mem_val]
  simp [SMap.empty]

theorem initialKahnInv (names : List String) (ds : List Dep)
    (hval : ∀ d ∈ ds, d.a ∈ names ∧ d.b ∈ names) :
    KahnInv (buildTree (emplaceFold SMap.empty names) ds).val
      (emplaceFold SMap.empty names).keys
      (buildTree (emplaceFold SMap.empty names) ds)
      (buildRev SMap.empty ds)
      (emplaceFold SMap.empty names).keys := by
  refine ⟨?_, subset_refl _, ?_, ?_, ?_⟩
  · ext a
    rw [buildTree_mem_keys]
    constructor
    · rintro (h | ⟨d, hd, hda⟩)
      · exact h
      · exact (emplaceFold_empty_mem_keys names a).mpr (hda ▸ (hval d hd).1)
    · exact fun h => Or.inl h
  · intro a
    by_cases ha : a ∈ (emplaceFold SMap.empty names).keys
    · rw [if_pos ha]
      symm
      apply Finset.inter_eq_left.mpr
      intro x hx
      obtain ⟨d, hd, hda, hdb⟩ := (buildTree_empty_mem_val names ds a x).mp hx
      exact (emplaceFold_empty_mem_keys names x).mpr (hdb ▸ (hval d hd).2)
    · rw [if_neg ha]
      apply Finset.eq_empty_of_forall_not_mem
      intro x hx
      obtain ⟨d, hd, hda, _⟩ := (buildTree_empty_mem_val names ds a x).mp hx
      exact ha ((emplaceFold_empty_mem_keys names a).mpr (hda ▸ (hval d hd).1))
  · intro b
    by_cases hb : b ∈ (emplaceFold SMap.empty names).keys
    · rw [if_pos hb]
      ext a
      rw [buildRev_empty_mem_val, revOf, Finset.mem_filter]
      constructor
      · rintro ⟨d, hd, hda, hdb⟩
        refine ⟨(emplaceFold_empty_mem_keys names a).mpr (hda ▸ (hval d hd).1), ?_⟩
        exact (buildTree_empty_mem_val names ds a b).mpr ⟨d, hd, hda, hdb⟩
      · rintro ⟨_, hga⟩
        exact (buildTree_empty_mem_val names ds a b).mp hga
    · rw [if_neg hb]
      apply Finset.eq_empty_of_forall_not_mem
      intro a ha
      obtain ⟨d, hd, _, hdb⟩ := (buildRev_empty_mem_val ds a b).mp ha
      exact hb ((emplaceFold_empty_mem_keys names b).mpr (hdb ▸ (hval d hd).2))
  · ext b
    rw [buildRev_mem_keys, Finset.mem_filter]
    have hemp : b ∈ SMap.empty.keys ↔ False := by simp [SMap.empty]
    rw [hemp, false_or]
    constructor
    · rintro ⟨d, hd, hdb⟩
      refine ⟨(emplaceFold_empty_mem_keys names b).mpr (hdb ▸ (hval d hd).2), ?_⟩
      intro hrev
      have : d.a ∈ revOf (buildTree (emplaceFold SMap.empty names) ds).val
          (emplaceFold SMap.empty names).keys b := by
        rw [revOf, Finset.mem_filter]
        refine ⟨(emplaceFold_empty_mem_keys names d.a).mpr (hval d hd).1, ?_⟩
        exact (buildTree_empty_mem_val names ds d.a b).mpr ⟨d, hd, rfl, hdb⟩
      rw [hrev] at this
      exact absurd this (Finset.not_mem_empty d.a)
    · rintro ⟨hbK, hrev⟩
      obtain ⟨a, ha⟩ := Finset.nonempty_iff_ne_empty.mpr hrev
      rw [revOf, Finset.mem_filter] at ha
      obtain ⟨d, hd, _, hdb⟩ :=
        (buildTree_empty_mem_val names ds a b).mp ha.2
      exact ⟨d, hd, hdb⟩

theorem edgeWithin_iff_depRel (names : List String) (ds : List Dep)
    (hval : ∀ d ∈ ds, d.a ∈ names ∧ d.b ∈ names) (x y : String) :
    edgeWithin (buildTree (emplaceFold SMap.empty names) ds).val
      (emplaceFold SMap.empty names).keys x y ↔ depRel ds x y := by
  rw [edgeWithin, depRel]
  constructor
  · rintro ⟨_, _, hg⟩
    exact (buildTree_empty_mem_val names ds x y).mp hg
  · rintro ⟨d, hd, hda, hdb⟩
    refine ⟨(emplaceFold_empty_mem_keys names x).mpr (hda ▸ (hval d hd).1),
      (emplaceFold_empty_mem_keys names y).mpr (hdb ▸ (hval d hd).2), ?_⟩
    exact (buildTree_empty_mem_val names ds x y).mpr ⟨d, hd, hda, hdb⟩

theorem kahnLoop_spec (names : List String) (ds : List Dep)
    (hval : ∀ d ∈ ds, d.a ∈ names ∧ d.b ∈ names) :
    (kahnLoop (buildTree (emplaceFold SMap.empty names) ds)
        (buildRev SMap.empty ds) = true) ↔ ¬ hasCycle (depRel ds) := by
  rw [kahnLoop_eq_kahnAbs (buildTree (emplaceFold SMap.empty names) ds).val
    (emplaceFold SMap.empty names).keys (emplaceFold SMap.empty names).keys
    _ _ (initialKahnInv names ds hval)]
  rw [kahnAbs_eq_true_iff_acyclic]
  exact not_congr (hasCycle_congr (edgeWithin_iff_depRel names ds hval))

theorem compileGraph_eq_services_error (gname : String)
    (pool : List (String × List TServiceHost)) (gc : GraphConf) (d : Diag)
    (hsvc : compileServices gname pool ⟨SMap.empty, []⟩ gc.services = .error d) :
    compileGraph gname pool gc = .error d := by
  unfold compileGraph
  rw [hsvc]

theorem compileGraph_eq_no_deps (gname : String)
    (pool : List (String × List TServiceHost)) (gc : GraphConf) (st : ServState)
    (hds : gc.deps = none)
    (hsvc : compileServices gname pool ⟨SMap.empty, []⟩ gc.services = .ok st) :
    compileGraph gname pool gc = .ok ⟨st.services, st.tree, SMap.empty⟩ := by
  unfold compileGraph
  rw [hsvc, hds]

theorem compileGraph_eq_deps_error (gname : String)
    (pool : List (String × List TServiceHost)) (gc : GraphConf) (st : ServState)
    (ds : List Dep) (d : Diag) (hds : gc.deps = some ds)
    (hsvc : compileServices gname pool ⟨SMap.empty, []⟩ gc.services = .ok st)
    (hdeps : compileDeps gname st.services (st.tree, SMap.empty) ds = .error d) :
    compileGraph gname pool gc = .error d := by
  unfold compileGraph
  rw [hsvc, hds]
  show (match compileDeps gname st.services (st.tree, SMap.empty) ds with
    | Except.error d => Except.error d
    | Except.ok (tree, rtree) =>
      if kahnLoop tree rtree then
        Except.ok (⟨st.services, tree, rtree⟩ : TRouterDGraph)
      else Except.error (Diag.DependencyCycle gname)) = Except.error d
  rw [hdeps]

theorem compileGraph_eq_kahn (gname : String)
    (pool : List (String × List TServiceHost)) (gc : GraphConf) (st : ServState)
    (ds : List Dep) (t' r' : SMap) (hds : gc.deps = some ds)
    (hsvc : compileServices gname pool ⟨SMap.empty, []⟩ gc.services = .ok st)
    (hdeps : compileDeps gname st.services (st.tree, SMap.empty) ds = .ok (t', r')) :
    compileGraph gname pool gc =
      if kahnLoop t' r' then .ok ⟨st.services, t', r'⟩
      else .error (.DependencyCycle gname) := by
  unfold compileGraph
  rw [hsvc, hds]
  show (match compileDeps gname st.services (st.tree, SMap.empty) ds with
    | Except.error d => Except.error d
    | Except.ok (tree, rtree) =>
      if kahnLoop tree rtree then
        Except.ok (⟨st.services, tree, rtree⟩ : TRouterDGraph)
      else Except.error (Diag.DependencyCycle gname)) = _
  rw [hdeps]

theorem compileGraphs_singleton_error (pool : List (String × List TServiceHost))
    (gname : String) (gc : GraphConf) (d : Diag)
    (h : compileGraph gname pool gc = .error d) :
    compileGraphs pool [(gname, gc)] = .error d := by
  rw [compileGraphs, h]

theorem routerDMain_hosts_error (b4 b6 : Option String)
    (hs : List (String × List String)) (gl : List (String × GraphConf))
    (routes : List RouteConf) (port : Nat) (th : Option Nat) (d : Diag)
    (hh : buildHosts hs = .error d) :
    routerDMain (.parsed ⟨b4, b6, hs, gl, routes, port, th⟩) =
      .exitError 1 d := by
  unfold routerDMain
  show (match buildHosts hs with
    | Except.error d => Outcome.exitError 1 d
    | Except.ok pool =>
      match compileGraphs pool gl with
      | Except.error d => Outcome.exitError 1 d
      | Except.ok gs =>
        match checkRoutes gs routes with
        | Except.error e => Outcome.thrown e
        | Except.ok _ => Outcome.running gs pool) = _
  rw [hh]

theorem routerDMain_graphs_error (b4 b6 : Option String)
    (hs : List (String × List String)) (gl : List (String × GraphConf))
    (routes : List RouteConf) (port : Nat) (th : Option Nat)
    (pool : List (String × List TServiceHost)) (d : Diag)
    (hh : buildHosts hs = .ok pool) (hg : compileGraphs pool gl = .error d) :
    routerDMain (.parsed ⟨b4, b6, hs, gl, routes, port, th⟩) =
      .exitError 1 d := by
  unfold routerDMain
  show (match buildHosts hs with
    | Except.error d => Outcome.exitError 1 d
    | Except.ok pool =>
      match compileGraphs pool gl with
      | Except.error d => Outcome.exitError 1 d
      | Except.ok gs =>
        match checkRoutes gs routes with
        | Except.error e => Outcome.thrown e
        | Except.ok _ => Outcome.running gs pool) = _
  rw [hh]
  show (match compileGraphs pool gl with
    | Except.error d => Outcome.exitError 1 d
    | Except.ok gs =>
      match checkRoutes gs routes with
      | Except.error e => Outcome.thrown e
      | Except.ok _ => Outcome.running gs pool) = _
  rw [hg]

/-- Claim C4: for every dependency entry `{a,b}` processed during
compilation — here, the entry `d` reached after a successfully processed
prefix `ds1` of the `deps` list — if `a = b` the graph compilation fails
with the SelfDependency diagnostic; otherwise if `a` (checked first) or `b`
is not a declared service it fails with the UnknownService diagnostic;
otherwise `b` is inserted into `forward[a]` (`Tree`) and `a` into
`reverse[b]` (`ReverseTree`) and the loop continues on the rest. -/
theorem claim4_dep_entry (gname : String) (svc : List (String × TService))
    (st st1 : SMap × SMap) (ds1 : List Dep) (d : Dep) (ds2 : List Dep)
    (h1 : compileDeps gname svc st ds1 = .ok st1) :
    (d.a = d.b →
      compileDeps gname svc st (ds1 ++ d :: ds2) =
        .error (.SelfDependency gname d.a)) ∧
    (d.a ≠ d.b → containsKey svc d.a = false →
      compileDeps gname svc st (ds1 ++ d :: ds2) =
        .error (.UnknownService gname d.a)) ∧
    (d.a ≠ d.b → containsKey svc d.a = true → containsKey svc d.b = false →
      compileDeps gname svc st (ds1 ++ d :: ds2) =
        .error (.UnknownService gname d.b)) ∧
    (d.a ≠ d.b → containsKey svc d.a = true → containsKey svc d.b = true →
      compileDeps gname svc st (ds1 ++ d :: ds2) =
        compileDeps gname svc
          (st1.1.insertVal d.a d.b, st1.2.insertVal d.b d.a) ds2 ∧
      d.b ∈ (st1.1.insertVal d.a d.b).val d.a ∧
      d.a ∈ (st1.2.insertVal d.b d.a).val d.b) := by
  have hstep : compileDeps gname svc st (ds1 ++ d :: ds2) =
      match processDep gname svc st1 d with
      | .error e => .error e
      | .ok st' => compileDeps gname svc st' ds2 := by
    rw [compileDeps_append, h1]
    rfl
  refine ⟨?_, ?_, ?_, ?_⟩
  · intro hab
    rw [hstep]
    unfold processDep
    rw [if_pos hab]
  · intro hab ha
    rw [hstep]
    unfold processDep
    rw [if_neg hab, if_pos ha]
  · intro hab ha hb
    rw [hstep]
    unfold processDep
    rw [if_neg hab, if_neg (by simp [ha]), if_pos hb]
  · intro hab ha hb
    refine ⟨?_, ?_, ?_⟩
    · rw [hstep]
      unfold processDep
      rw [if_neg hab, if_neg (by simp [ha]), if_neg (by simp [hb])]
    · rw [insertVal_val, if_pos rfl]
      exact Finset.mem_insert_self d.b _
    · rw [insertVal_val, if_pos rfl]
      exact Finset.mem_insert_self d.a _

/-- Claim C5: for every service entry processed during compilation — here
the entry `e` reached after a successfully processed prefix `es1` — a bare
string `n` normalizes to Name `n` and HostsFrom `n`; an object uses its
`hosts_from` field when present and otherwise its `name`; an unknown host
group fails the graph compilation with the UnknownHostGroup diagnostic; a
name already present fails it with the DuplicateService diagnostic;
otherwise the loop records the service and continues. -/
theorem claim5_service_entry (gname : String)
    (pool : List (String × List TServiceHost)) (st st1 : ServState)
    (es1 : List ServiceEntry) (e : ServiceEntry) (es2 : List ServiceEntry)
    (h1 : compileServices gname pool st es1 = .ok st1) :
    (∀ n, e = .str n →
      (normalizeService e).Name = n ∧ (normalizeService e).HostsFrom = n) ∧
    (∀ n hf p, e = .obj n hf p →
      (normalizeService e).Name = n ∧
      (∀ h', hf = some h' → (normalizeService e).HostsFrom = h') ∧
      (hf = none → (normalizeService e).HostsFrom = n)) ∧
    (containsKey pool (normalizeService e).HostsFrom = false →
      compileServices gname pool st (es1 ++ e :: es2) =
        .error (.UnknownHostGroup gname (normalizeService e).HostsFrom)) ∧
    (containsKey pool (normalizeService e).HostsFrom = true →
      containsKey st1.services (normalizeService e).Name = true →
      compileServices gname pool st (es1 ++ e :: es2) =
        .error (.DuplicateService gname (normalizeService e).Name)) ∧
    (containsKey pool (normalizeService e).HostsFrom = true →
      containsKey st1.services (normalizeService e).Name = false →
      compileServices gname pool st (es1 ++ e :: es2) =
        compileServices gname pool
          ⟨st1.tree.emplace (normalizeService e).Name,
            st1.services ++ [((normalizeService e).Name, normalizeService e)]⟩
          es2) := by
  have hstep : compileServices gname pool st (es1 ++ e :: es2) =
      match processService gname pool st1 e with
      | .error d => .error d
      | .ok st' => compileServices gname pool st' es2 := by
    rw [compileServices_append, h1]
    rfl
  refine ⟨?_, ?_, ?_, ?_, ?_⟩
  · intro n he
    subst he
    exact ⟨rfl, rfl⟩
  · intro n hf p he
    subst he
    refine ⟨rfl, ?_, ?_⟩
    · intro h' hh
      subst hh
      rfl
    · intro hh
      subst hh
      rfl
  · intro hhost
    rw [hstep]
    unfold processService
    rw [if_pos hhost]
  · intro hhost hdup
    rw [hstep]
    unfold processService
    rw [if_neg (by simp [hhost]), if_pos hdup]
  · intro hhost hdup
    rw [hstep]
    unfold processService
    rw [if_neg (by simp [hhost]), if_neg (by simp [hdup])]

/-- Claim C1 (amended): for a graph configuration with a `deps` list whose
service entries compile successfully and whose dependency entries each relate
two distinct declared services, compilation fails with the DependencyCycle
diagnostic iff the dependency relation built from `deps` contains a cycle;
when that relation is acyclic the Kahn validation loop drains its working set
to empty (returns `true`) and compilation of the graph succeeds; and a
startup whose single graph has a cyclic `deps` exits with code 1 and the
DependencyCycle diagnostic on stderr. -/
theorem claim1_kahn_cycle_iff (gname : String)
    (pool : List (String × List TServiceHost)) (gc : GraphConf) (ds : List Dep)
    (hds : gc.deps = some ds)
    (hsvc : exceptIsOk
      (compileServices gname pool ⟨SMap.empty, []⟩ gc.services) = true)
    (hval : ∀ d ∈ ds, d.a ≠ d.b ∧ d.a ∈ entryNames gc.services ∧
      d.b ∈ entryNames gc.services) :
    ((errOf (compileGraph gname pool gc) = some (.DependencyCycle gname)) ↔
      hasCycle (depRel ds)) ∧
    (¬ hasCycle (depRel ds) →
      kahnLoop (buildTree (emplaceFold SMap.empty (entryNames gc.services)) ds)
        (buildRev SMap.empty ds) = true ∧
      exceptIsOk (compileGraph gname pool gc) = true) ∧
    (∀ (b4 b6 : Option String) (routes : List RouteConf) (port : Nat)
        (th : Option Nat) (hs : List (String × List String)),
      buildHosts hs = .ok pool → hasCycle (depRel ds) →
      routerDMain (.parsed ⟨b4, b6, hs, [(gname, gc)], routes, port, th⟩) =
        .exitError 1 (.DependencyCycle gname)) := by
  cases hs0 : compileServices gname pool ⟨SMap.empty, []⟩ gc.services with
  | error d =>
    rw [hs0] at hsvc
    exact absurd hsvc (by simp [exceptIsOk])
  | ok st =>
    obtain ⟨htree, hserv⟩ := compileServices_ok gname pool _ gc.services st hs0
    have htree' : st.tree = emplaceFold SMap.empty (entryNames gc.services) :=
      htree
    have hserv' : ∀ n, containsKey st.services n = true ↔
        n ∈ entryNames gc.services := by
      intro n
      rw [hserv]
      show containsKey ([] ++ svcAssoc gc.services) n = true ↔ _
      rw [containsKey_append]
      simp only [containsKey, List.any_nil, Bool.false_or]
      exact containsKey_svcAssoc gc.services n
    have hvalid : ∀ d ∈ ds, depValid st.services d := fun d hd =>
      ⟨(hval d hd).1, (hserv' d.a).mpr (hval d hd).2.1,
        (hserv' d.b).mpr (hval d hd).2.2⟩
    have hdeps := compileDeps_ok_of_valid gname st.services st.tree SMap.empty
      ds hvalid
    have hkahnIff : (kahnLoop (buildTree st.tree ds)
        (buildRev SMap.empty ds) = true) ↔ ¬ hasCycle (depRel ds) := by
      rw [htree']
      exact kahnLoop_spec (entryNames gc.services) ds
        (fun d hd => ⟨(hval d hd).2.1, (hval d hd).2.2⟩)
    have hunf := compileGraph_eq_kahn gname pool gc st ds _ _ hds hs0 hdeps
    by_cases hk : kahnLoop (buildTree st.tree ds) (buildRev SMap.empty ds)
        = true
    · have hok : compileGraph gname pool gc =
          .ok ⟨st.services, buildTree st.tree ds, buildRev SMap.empty ds⟩ := by
        rw [hunf, if_pos hk]
      refine ⟨?_, ?_, ?_⟩
      · rw [hok]
        simp only [errOf, false_iff, reduceCtorEq]
        exact hkahnIff.mp hk
      · intro _
        constructor
        · rw [← htree']
          exact hk
        · rw [hok]
          rfl
      · intro b4 b6 routes port th hs hhosts hcyc
        exact absurd hcyc (hkahnIff.mp hk)
    · have herr : compileGraph gname pool gc =
          .error (.DependencyCycle gname) := by
        rw [hunf, if_neg hk]
      have hcyc : hasCycle (depRel ds) := by
        by_contra hnc
        exact hk (hkahnIff.mpr hnc)
      refine ⟨?_, ?_, ?_⟩
      · rw [herr]
        simp only [errOf, Option.some.injEq, true_iff]
        exact hcyc
      · intro hnc
        exact absurd hcyc hnc
      · intro b4 b6 routes port th hs hhosts _
        exact routerDMain_graphs_error b4 b6 hs [(gname, gc)] routes port th
          pool _ hhosts (compileGraphs_singleton_error pool gname gc _ herr)

/-- Claim C1, counterexample to the original statement: the configuration
with one service `a` and `deps = [{a,a}]` has a cyclic dependency relation
(the self-loop on `a`), yet compilation does not fail with the
DependencyCycle diagnostic — it fails earlier with SelfDependency — so the
claimed equivalence is false as stated. -/
theorem claim1_counterexample :
    ¬ ((errOf (compileGraph "g" [("a", [⟨"127.0.0.1", 1⟩])]
          ⟨[.str "a"], some [⟨"a", "a"⟩]⟩) =
        some (.DependencyCycle "g")) ↔ hasCycle (depRel [⟨"a", "a"⟩])) := by
  intro h
  have hcyc : hasCycle (depRel [⟨"a", "a"⟩]) :=
    ⟨"a", Relation.TransGen.single
      ⟨⟨"a", "a"⟩, List.mem_singleton_self _, rfl, rfl⟩⟩
  have heq := h.mpr hcyc
  have hval : errOf (compileGraph "g" [("a", [⟨"127.0.0.1", 1⟩])]
      ⟨[.str "a"], some [⟨"a", "a"⟩]⟩) = some (.SelfDependency "g" "a") := by
    rfl
  rw [hval] at heq
  exact absurd heq (by decide)

/-- Witness for the amended claim C1 at a concrete acyclic two-service
graph. -/
theorem claim1_witness :
    ((⟨[.str "a", .str "b"], some [⟨"a", "b"⟩]⟩ : GraphConf).deps =
      some [⟨"a", "b"⟩]) ∧
    exceptIsOk (compileServices "g" [("a", [⟨"h", 1⟩]), ("b", [⟨"h", 2⟩])]
      ⟨SMap.empty, []⟩
      (⟨[.str "a", .str "b"], some [⟨"a", "b"⟩]⟩ : GraphConf).services)
      = true ∧
    (∀ d ∈ [(⟨"a", "b"⟩ : Dep)], d.a ≠ d.b ∧
      d.a ∈ entryNames
        (⟨[.str "a", .str "b"], some [⟨"a", "b"⟩]⟩ : GraphConf).services ∧
      d.b ∈ entryNames
        (⟨[.str "a", .str "b"], some [⟨"a", "b"⟩]⟩ : GraphConf).services) ∧
    (((errOf (compileGraph "g" [("a", [⟨"h", 1⟩]), ("b", [⟨"h", 2⟩])]
          ⟨[.str "a", .str "b"], some [⟨"a", "b"⟩]⟩) =
        some (.DependencyCycle "g")) ↔ hasCycle (depRel [⟨"a", "b"⟩])) ∧
      (¬ hasCycle (depRel [⟨"a", "b"⟩]) →
        kahnLoop (buildTree (emplaceFold SMap.empty
            (entryNames [.str "a", .str "b"])) [⟨"a", "b"⟩])
          (buildRev SMap.empty [⟨"a", "b"⟩]) = true ∧
        exceptIsOk (compileGraph "g" [("a", [⟨"h", 1⟩]), ("b", [⟨"h", 2⟩])]
          ⟨[.str "a", .str "b"], some [⟨"a", "b"⟩]⟩) = true) ∧
      (∀ (b4 b6 : Option String) (routes : List RouteConf) (port : Nat)
          (th : Option Nat) (hs : List (String × List String)),
        buildHosts hs = .ok [("a", [⟨"h", 1⟩]), ("b", [⟨"h", 2⟩])] →
        hasCycle (depRel [⟨"a", "b"⟩]) →
        routerDMain (.parsed ⟨b4, b6, hs,
            [("g", ⟨[.str "a", .str "b"], some [⟨"a", "b"⟩]⟩)],
            routes, port, th⟩) =
          .exitError 1 (.DependencyCycle "g"))) :=
  ⟨rfl, by decide, by decide,
    claim1_kahn_cycle_iff "g" [("a", [⟨"h", 1⟩]), ("b", [⟨"h", 2⟩])]
      ⟨[.str "a", .str "b"], some [⟨"a", "b"⟩]⟩ [⟨"a", "b"⟩]
      rfl (by decide) (by decide)⟩

theorem compileServices_containsKey (gname : String)
    (pool : List (String × List TServiceHost)) (es : List ServiceEntry)
    (st : ServState)
    (h : compileServices gname pool ⟨SMap.empty, []⟩ es = .ok st) (n : String) :
    containsKey st.services n = true ↔ n ∈ entryNames es := by
  rw [(compileServices_ok gname pool _ es st h).2]
  show containsKey ([] ++ svcAssoc es) n = true ↔ _
  rw [containsKey_append]
  simp only [containsKey, List.any_nil, Bool.false_or]
  exact containsKey_svcAssoc es n

/-- Claim C2: for a graph with a `deps` list that passes validation, the
retained `Tree` and `ReverseTree` of the compiled graph equal the
pre-destruction snapshot of the adjacency built by the dependency-insertion
step (`specForward` / `specReverse`, stated from the claim's words); the
Kahn validation operates on the loop locals and does not change the
retained maps. -/
theorem claim2_snapshot (gname : String)
    (pool : List (String × List TServiceHost)) (gc : GraphConf) (ds : List Dep)
    (hds : gc.deps = some ds)
    (hok : exceptIsOk (compileGraph gname pool gc) = true) :
    treeOf (compileGraph gname pool gc) =
      specForward (entryNames gc.services) ds ∧
    revTreeOf (compileGraph gname pool gc) = specReverse ds := by
  cases hs0 : compileServices gname pool ⟨SMap.empty, []⟩ gc.services with
  | error d =>
    rw [compileGraph_eq_services_error gname pool gc d hs0] at hok
    exact absurd hok (by simp [exceptIsOk])
  | ok st =>
    cases hd0 : compileDeps gname st.services (st.tree, SMap.empty) ds with
    | error d =>
      rw [compileGraph_eq_deps_error gname pool gc st ds d hds hs0 hd0] at hok
      exact absurd hok (by simp [exceptIsOk])
    | ok out =>
      obtain ⟨t', r'⟩ := out
      obtain ⟨_, hout⟩ :=
        compileDeps_ok_elim gname st.services st.tree SMap.empty ds (t', r') hd0
      injection hout with ht' hr'
      subst ht'
      subst hr'
      have hunf := compileGraph_eq_kahn gname pool gc st ds _ _ hds hs0 hd0
      by_cases hk : kahnLoop (buildTree st.tree ds) (buildRev SMap.empty ds)
          = true
      · have hok2 : compileGraph gname pool gc = .ok
            ⟨st.services, buildTree st.tree ds, buildRev SMap.empty ds⟩ := by
          rw [hunf, if_pos hk]
        have htree' : st.tree =
            emplaceFold SMap.empty (entryNames gc.services) :=
          (compileServices_ok gname pool _ gc.services st hs0).1
        rw [hok2]
        constructor
        · show buildTree st.tree ds = _
          rw [htree']
          rfl
        · rfl
      · rw [hunf, if_neg hk] at hok
        exact absurd hok (by simp [exceptIsOk])

/-- Witness for claim C2 at a one-service graph with an empty `deps` list. -/
theorem claim2_witness :
    ((⟨[.str "a"], some []⟩ : GraphConf).deps = some []) ∧
    exceptIsOk (compileGraph "g" [("a", [⟨"h", 1⟩])] ⟨[.str "a"], some []⟩)
      = true ∧
    (treeOf (compileGraph "g" [("a", [⟨"h", 1⟩])] ⟨[.str "a"], some []⟩) =
      specForward (entryNames [.str "a"]) [] ∧
    revTreeOf (compileGraph "g" [("a", [⟨"h", 1⟩])] ⟨[.str "a"], some []⟩) =
      specReverse []) := by
  have hnc : ¬ hasCycle (depRel ([] : List Dep)) := by
    apply not_hasCycle_of_no_edge
    rintro x y ⟨d, hd, _⟩
    exact absurd hd (List.not_mem_nil d)
  have hk : kahnLoop (buildTree (emplaceFold SMap.empty
      (entryNames [.str "a"])) []) (buildRev SMap.empty []) = true :=
    (kahnLoop_spec (entryNames [.str "a"]) [] (by simp)).mpr hnc
  have hsvc : compileServices "g" [("a", [⟨"h", 1⟩])] ⟨SMap.empty, []⟩
      [.str "a"] = .ok ⟨SMap.empty.emplace "a", [("a", ⟨"a", "a", ""⟩)]⟩ :=
    rfl
  have hdeps : compileDeps "g" [("a", (⟨"a", "a", ""⟩ : TService))]
      ((SMap.empty.emplace "a"), SMap.empty) ([] : List Dep) =
      .ok (SMap.empty.emplace "a", SMap.empty) := rfl
  have hunf := compileGraph_eq_kahn "g" [("a", [⟨"h", 1⟩])]
    ⟨[.str "a"], some []⟩ ⟨SMap.empty.emplace "a", [("a", ⟨"a", "a", ""⟩)]⟩
    [] (SMap.empty.emplace "a") SMap.empty rfl hsvc hdeps
  have hk' : kahnLoop (SMap.empty.emplace "a") SMap.empty = true := hk
  have hok : exceptIsOk (compileGraph "g" [("a", [⟨"h", 1⟩])]
      ⟨[.str "a"], some []⟩) = true := by
    rw [hunf, if_pos hk']
    rfl
  exact ⟨rfl, hok, claim2_snapshot "g" [("a", [⟨"h", 1⟩])]
    ⟨[.str "a"], some []⟩ [] rfl hok⟩

/-- Claim C3: for every successfully compiled graph, every key of `Tree` and
of `ReverseTree` and every name in any of their value sets is a key of
`Services`; `Tree` has no self-edges; and `Tree` is acyclic. -/
theorem claim3_invariants (gname : String)
    (pool : List (String × List TServiceHost)) (gc : GraphConf)
    (hok : exceptIsOk (compileGraph gname pool gc) = true) :
    (∀ k ∈ (treeOf (compileGraph gname pool gc)).keys,
      containsKey (servicesOf (compileGraph gname pool gc)) k = true) ∧
    (∀ a b, b ∈ (treeOf (compileGraph gname pool gc)).val a →
      containsKey (servicesOf (compileGraph gname pool gc)) b = true) ∧
    (∀ k ∈ (revTreeOf (compileGraph gname pool gc)).keys,
      containsKey (servicesOf (compileGraph gname pool gc)) k = true) ∧
    (∀ a b, a ∈ (revTreeOf (compileGraph gname pool gc)).val b →
      containsKey (servicesOf (compileGraph gname pool gc)) a = true) ∧
    (∀ a, a ∉ (treeOf (compileGraph gname pool gc)).val a) ∧
    ¬ hasCycle (fun x y => y ∈ (treeOf (compileGraph gname pool gc)).val x) :=
  by
  cases hs0 : compileServices gname pool ⟨SMap.empty, []⟩ gc.services with
  | error d =>
    rw [compileGraph_eq_services_error gname pool gc d hs0] at hok
    exact absurd hok (by simp [exceptIsOk])
  | ok st =>
    have htree' : st.tree = emplaceFold SMap.empty (entryNames gc.services) :=
      (compileServices_ok gname pool _ gc.services st hs0).1
    have hservKey := compileServices_containsKey gname pool gc.services st hs0
    cases hgc : gc.deps with
    | none =>
      have hok2 := compileGraph_eq_no_deps gname pool gc st hgc hs0
      rw [hok2]
      simp only [treeOf, revTreeOf, servicesOf]
      have hvalE : ∀ a, st.tree.val a = ∅ := by
        intro a
        rw [htree']
        exact emplaceFold_val _ SMap.empty (fun _ => rfl) a
      refine ⟨?_, ?_, ?_, ?_, ?_, ?_⟩
      · intro k hk
        rw [htree', emplaceFold_empty_mem_keys] at hk
        exact (hservKey k).mpr hk
      · intro a b hb
        rw [hvalE a] at hb
        exact absurd hb (Finset.not_mem_empty b)
      · intro k hk
        exact absurd hk (Finset.not_mem_empty k)
      · intro a b hb
        exact absurd hb (Finset.not_mem_empty a)
      · intro a hb
        rw [hvalE a] at hb
        exact absurd hb (Finset.not_mem_empty a)
      · apply not_hasCycle_of_no_edge
        intro x y hy
        rw [hvalE x] at hy
        exact absurd hy (Finset.not_mem_empty y)
    | some ds =>
      cases hd0 : compileDeps gname st.services (st.tree, SMap.empty) ds with
      | error d =>
        rw [compileGraph_eq_deps_error gname pool gc st ds d hgc hs0 hd0]
          at hok
        exact absurd hok (by simp [exceptIsOk])
      | ok out =>
        obtain ⟨t', r'⟩ := out
        obtain ⟨hvalid, hout⟩ := compileDeps_ok_elim gname st.services st.tree
          SMap.empty ds (t', r') hd0
        injection hout with ht' hr'
        subst ht'
        subst hr'
        have hunf := compileGraph_eq_kahn gname pool gc st ds _ _ hgc hs0 hd0
        by_cases hk : kahnLoop (buildTree st.tree ds) (buildRev SMap.empty ds)
            = true
        · have hok2 : compileGraph gname pool gc = .ok
              ⟨st.services, buildTree st.tree ds, buildRev SMap.empty ds⟩ := by
            rw [hunf, if_pos hk]
          rw [hok2]
          simp only [treeOf, revTreeOf, servicesOf]
          have hmemval : ∀ a b, b ∈ (buildTree st.tree ds).val a ↔
              ∃ d ∈ ds, d.a = a ∧ d.b = b := by
            intro a b
            rw [htree']
            exact buildTree_empty_mem_val _ ds a b
          refine ⟨?_, ?_, ?_, ?_, ?_, ?_⟩
          · intro k hk2
            rw [buildTree_mem_keys] at hk2
            rcases hk2 with hk2 | ⟨d, hd, hda⟩
            · rw [htree', emplaceFold_empty_mem_keys] at hk2
              exact (hservKey k).mpr hk2
            · exact hda ▸ (hvalid d hd).2.1
          · intro a b hb
            obtain ⟨d, hd, _, hdb⟩ := (hmemval a b).mp hb
            exact hdb ▸ (hvalid d hd).2.2
          · intro k hk2
            rw [buildRev_mem_keys] at hk2
            rcases hk2 with hk2 | ⟨d, hd, hdb⟩
            · exact absurd (by simpa [SMap.empty] using hk2) id
            · exact hdb ▸ (hvalid d hd).2.2
          · intro a b hb
            obtain ⟨d, hd, hda, _⟩ := (buildRev_empty_mem_val ds a b).mp hb
            exact hda ▸ (hvalid d hd).2.1
          · intro a hb
            obtain ⟨d, hd, hda, hdb⟩ := (hmemval a a).mp hb
            exact (hvalid d hd).1 (hda.trans hdb.symm)
          · intro hcyc
            have hvalNames : ∀ d ∈ ds, d.a ∈ entryNames gc.services ∧
                d.b ∈ entryNames gc.services := fun d hd =>
              ⟨(hservKey d.a).mp (hvalid d hd).2.1,
                (hservKey d.b).mp (hvalid d hd).2.2⟩
            have hnc : ¬ hasCycle (depRel ds) := by
              apply (kahnLoop_spec (entryNames gc.services) ds hvalNames).mp
              rw [← htree']
              exact hk
            apply hnc
            apply (hasCycle_congr ?_).mp hcyc
            intro x y
            rw [hmemval x y]
            rfl
        · rw [hunf, if_neg hk] at hok
          exact absurd hok (by simp [exceptIsOk])

/-- Witness for claim C3 at a one-service graph without a `deps` list. -/
theorem claim3_witness :
    exceptIsOk (compileGraph "g" [("a", [⟨"h", 1⟩])] ⟨[.str "a"], none⟩)
      = true ∧
    ((∀ k ∈ (treeOf (compileGraph "g" [("a", [⟨"h", 1⟩])]
        ⟨[.str "a"], none⟩)).keys,
      containsKey (servicesOf (compileGraph "g" [("a", [⟨"h", 1⟩])]
        ⟨[.str "a"], none⟩)) k = true) ∧
    (∀ a b, b ∈ (treeOf (compileGraph "g" [("a", [⟨"h", 1⟩])]
        ⟨[.str "a"], none⟩)).val a →
      containsKey (servicesOf (compileGraph "g" [("a", [⟨"h", 1⟩])]
        ⟨[.str "a"], none⟩)) b = true) ∧
    (∀ k ∈ (revTreeOf (compileGraph "g" [("a", [⟨"h", 1⟩])]
        ⟨[.str "a"], none⟩)).keys,
      containsKey (servicesOf (compileGraph "g" [("a", [⟨"h", 1⟩])]
        ⟨[.str "a"], none⟩)) k = true) ∧
    (∀ a b, a ∈ (revTreeOf (compileGraph "g" [("a", [⟨"h", 1⟩])]
        ⟨[.str "a"], none⟩)).val b →
      containsKey (servicesOf (compileGraph "g" [("a", [⟨"h", 1⟩])]
        ⟨[.str "a"], none⟩)) a = true) ∧
    (∀ a, a ∉ (treeOf (compileGraph "g" [("a", [⟨"h", 1⟩])]
        ⟨[.str "a"], none⟩)).val a) ∧
    ¬ hasCycle (fun x y => y ∈ (treeOf (compileGraph "g" [("a", [⟨"h", 1⟩])]
        ⟨[.str "a"], none⟩)).val x)) :=
  ⟨by rfl, claim3_invariants "g" [("a", [⟨"h", 1⟩])] ⟨[.str "a"], none⟩
    (by rfl)⟩

theorem parseHost_of_none (g h : String) (hph : rfindColon h.data = none) :
    parseHost g h = .error (.MalformedHost g h) := by
  rw [parseHost, hph]

theorem parseHost_of_some (g h : String) (i : Nat)
    (hph : rfindColon h.data = some i) :
    parseHost g h =
      .ok ⟨⟨h.data.take i⟩, parsePort (h.data.drop (i + 1))⟩ := by
  rw [parseHost, hph]

theorem parseGroup_error_iff (g : String) (l : List String) :
    exceptIsOk (parseGroup g l) = false ↔
      ∃ h ∈ l, rfindColon h.data = none := by
  induction l with
  | nil => simp [parseGroup, exceptIsOk]
  | cons h hs ih =>
    cases hph : rfindColon h.data with
    | none =>
      simp only [parseGroup, parseHost_of_none g h hph, exceptIsOk]
      constructor
      · intro _
        exact ⟨h, List.mem_cons_self h hs, hph⟩
      · intro _
        trivial
    | some i =>
      simp only [parseGroup, parseHost_of_some g h i hph]
      cases hpg : parseGroup g hs with
      | error d =>
        simp only [exceptIsOk]
        rw [hpg] at ih
        simp only [exceptIsOk] at ih
        constructor
        · intro _
          obtain ⟨h', hh', hc⟩ := ih.mp trivial
          exact ⟨h', List.mem_cons_of_mem h hh', hc⟩
        · intro _
          trivial
      | ok es =>
        simp only [exceptIsOk]
        rw [hpg] at ih
        simp only [exceptIsOk] at ih
        constructor
        · intro hfalse
          exact absurd hfalse (by simp)
        · rintro ⟨h', hh', hc⟩
          rcases List.mem_cons.mp hh' with hh' | hh'
          · rw [hh'] at hc
            rw [hc] at hph
            exact absurd hph (by simp)
          · exact absurd (ih.mpr ⟨h', hh', hc⟩) (by simp)

theorem parseGroup_ok_forall2 (g : String) (l : List String)
    (es : List TServiceHost) (h : parseGroup g l = .ok es) :
    List.Forall₂ (fun h e => parseHost g h = .ok e) l es := by
  induction l generalizing es with
  | nil =>
    rw [parseGroup] at h
    injection h with h
    subst h
    exact List.Forall₂.nil
  | cons x xs ih =>
    rw [parseGroup] at h
    cases hph : parseHost g x with
    | error d =>
      rw [hph] at h
      exact absurd h (by simp)
    | ok e =>
      rw [hph] at h
      cases hpg : parseGroup g xs with
      | error d =>
        rw [hpg] at h
        exact absurd h (by simp)
      | ok es' =>
        rw [hpg] at h
        injection h with h
        subst h
        exact List.Forall₂.cons hph (ih es' hpg)

theorem parseGroup_error_shape (g : String) (l : List String) (d : Diag)
    (h : parseGroup g l = .error d) : ∃ h', d = .MalformedHost g h' := by
  induction l with
  | nil =>
    rw [parseGroup] at h
    exact absurd h (by simp)
  | cons x xs ih =>
    rw [parseGroup] at h
    cases hph : rfindColon x.data with
    | none =>
      rw [parseHost_of_none g x hph] at h
      injection h with h
      exact ⟨x, h.symm⟩
    | some i =>
      rw [parseHost_of_some g x i hph] at h
      cases hpg : parseGroup g xs with
      | error d' =>
        rw [hpg] at h
        injection h with h
        subst h
        exact ih hpg
      | ok es =>
        rw [hpg] at h
        exact absurd h (by simp)

theorem buildHosts_error_iff (hs : List (String × List String)) :
    exceptIsOk (buildHosts hs) = false ↔
      ∃ p ∈ hs, p.2 = [] ∨ ∃ h ∈ p.2, rfindColon h.data = none := by
  induction hs with
  | nil => simp [buildHosts, exceptIsOk]
  | cons p ps ih =>
    obtain ⟨g, l⟩ := p
    by_cases hl : l = []
    · subst hl
      simp only [buildHosts, if_pos rfl, exceptIsOk]
      constructor
      · intro _
        exact ⟨(g, []), List.mem_cons_self _ _, Or.inl rfl⟩
      · intro _
        trivial
    · rw [show buildHosts ((g, l) :: ps) =
          (match parseGroup g l with
          | .error d => .error d
          | .ok es =>
            match buildHosts ps with
            | .error d => .error d
            | .ok acc => .ok ((g, es) :: acc)) from by
        rw [buildHosts, if_neg hl]]
      cases hpg : parseGroup g l with
      | error d =>
        have hbad : ∃ h ∈ l, rfindColon h.data = none := by
          apply (parseGroup_error_iff g l).mp
          rw [hpg]
          rfl
        simp only [exceptIsOk]
        constructor
        · intro _
          obtain ⟨h, hh, hc⟩ := hbad
          exact ⟨(g, l), List.mem_cons_self _ _, Or.inr ⟨h, hh, hc⟩⟩
        · intro _
          trivial
      | ok es =>
        cases hbh : buildHosts ps with
        | error d =>
          simp only [exceptIsOk]
          rw [hbh] at ih
          simp only [exceptIsOk] at ih
          constructor
          · intro _
            obtain ⟨p', hp', hc⟩ := ih.mp trivial
            exact ⟨p', List.mem_cons_of_mem _ hp', hc⟩
          · intro _
            trivial
        | ok acc =>
          simp only [exceptIsOk]
          rw [hbh] at ih
          simp only [exceptIsOk] at ih
          constructor
          · intro hfalse
            exact absurd hfalse (by simp)
          · rintro ⟨p', hp', hc⟩
            rcases List.mem_cons.mp hp' with hp' | hp'
            · subst hp'
              rcases hc with hc | ⟨h, hh, hc⟩
              · exact absurd hc hl
              · have : exceptIsOk (parseGroup g l) = false :=
                  (parseGroup_error_iff g l).mpr ⟨h, hh, hc⟩
                rw [hpg] at this
                exact absurd this (by simp [exceptIsOk])
            · exact absurd (ih.mpr ⟨p', hp', hc⟩) (by simp)

theorem buildHosts_ok_forall2 (hs : List (String × List String))
    (pool : List (String × List TServiceHost))
    (h : buildHosts hs = .ok pool) :
    List.Forall₂ (fun (p : String × List String)
        (q : String × List TServiceHost) =>
      p.1 = q.1 ∧ List.Forall₂ (fun h e => parseHost p.1 h = .ok e) p.2 q.2)
      hs pool := by
  induction hs generalizing pool with
  | nil =>
    rw [buildHosts] at h
    injection h with h
    subst h
    exact List.Forall₂.nil
  | cons p ps ih =>
    obtain ⟨g, l⟩ := p
    rw [buildHosts] at h
    by_cases hl : l = []
    · rw [if_pos hl] at h
      exact absurd h (by simp)
    · rw [if_neg hl] at h
      cases hpg : parseGroup g l with
      | error d =>
        rw [hpg] at h
        exact absurd h (by simp)
      | ok es =>
        rw [hpg] at h
        cases hbh : buildHosts ps with
        | error d =>
          rw [hbh] at h
          exact absurd h (by simp)
        | ok acc =>
          rw [hbh] at h
          injection h with h
          subst h
          exact List.Forall₂.cons ⟨rfl, parseGroup_ok_forall2 g l es hpg⟩
            (ih acc hbh)

theorem buildHosts_error_shape (hs : List (String × List String)) (d : Diag)
    (h : buildHosts hs = .error d) :
    (∃ g, d = .EmptyHostGroup g) ∨ ∃ g h', d = .MalformedHost g h' := by
  induction hs with
  | nil =>
    rw [buildHosts] at h
    exact absurd h (by simp)
  | cons p ps ih =>
    obtain ⟨g, l⟩ := p
    rw [buildHosts] at h
    by_cases hl : l = []
    · rw [if_pos hl] at h
      injection h with h
      exact Or.inl ⟨g, h.symm⟩
    · rw [if_neg hl] at h
      cases hpg : parseGroup g l with
      | error d' =>
        rw [hpg] at h
        injection h with h
        subst h
        obtain ⟨h', hh'⟩ := parseGroup_error_shape g l _ hpg
        exact Or.inr ⟨g, h', hh'⟩
      | ok es =>
        rw [hpg] at h
        cases hbh : buildHosts ps with
        | error d' =>
          rw [hbh] at h
          injection h with h
          subst h
          exact ih hbh
        | ok acc =>
          rw [hbh] at h
          exact absurd h (by simp)

/-- Claim C7: host-pool construction fails (exit 1 with a stderr diagnostic)
exactly when some group list is empty (EmptyHostGroup) or some host string
has no colon (MalformedHost); otherwise every host string is accepted and
yields exactly one `TServiceHost` entry. -/
theorem claim7_host_pool (hs : List (String × List String)) :
    (exceptIsOk (buildHosts hs) = false ↔
      ∃ p ∈ hs, p.2 = [] ∨ ∃ h ∈ p.2, rfindColon h.data = none) ∧
    (∀ pool, buildHosts hs = .ok pool →
      List.Forall₂ (fun (p : String × List String)
          (q : String × List TServiceHost) =>
        p.1 = q.1 ∧
        List.Forall₂ (fun h e => parseHost p.1 h = .ok e) p.2 q.2) hs pool) ∧
    (∀ d, buildHosts hs = .error d →
      (∃ g, d = .EmptyHostGroup g) ∨ ∃ g h', d = .MalformedHost g h') ∧
    (∀ (b4 b6 : Option String) (gl : List (String × GraphConf))
        (routes : List RouteConf) (port : Nat) (th : Option Nat) (d : Diag),
      buildHosts hs = .error d →
      routerDMain (.parsed ⟨b4, b6, hs, gl, routes, port, th⟩) =
        .exitError 1 d) :=
  ⟨buildHosts_error_iff hs,
    fun pool h => buildHosts_ok_forall2 hs pool h,
    fun d h => buildHosts_error_shape hs d h,
    fun b4 b6 gl routes port th d h =>
      routerDMain_hosts_error b4 b6 hs gl routes port th d h⟩

/-- Witness for claim C7 at a concrete pool with one good group. -/
theorem claim7_witness :
    buildHosts [("g", ["x:80"])] = .ok [("g", [⟨"x", 80⟩])] ∧
    exceptIsOk (buildHosts [("g", ["x:80"])]) ≠ false ∧
    List.Forall₂ (fun (p : String × List String)
        (q : String × List TServiceHost) =>
      p.1 = q.1 ∧
      List.Forall₂ (fun h e => parseHost p.1 h = .ok e) p.2 q.2)
      [("g", ["x:80"])] [("g", [⟨"x", 80⟩])] := by
  refine ⟨by rfl, ?_, ?_⟩
  · intro hq
    have := (claim7_host_pool [("g", ["x:80"])]).1.mp hq
    obtain ⟨p, hp, hbad⟩ := this
    rcases List.mem_cons.mp hp with hp | hp
    · subst hp
      rcases hbad with hbad | ⟨h, hh, hc⟩
      · exact absurd hbad (by decide)
      · rcases List.mem_cons.mp hh with hh | hh
        · subst hh
          exact absurd hc (by decide)
        · exact absurd hh (by simp)
    · exact absurd hp (by simp)
  · exact (claim7_host_pool [("g", ["x:80"])]).2.1 [("g", [⟨"x", 80⟩])]
      (by rfl)

/-- Claim C6 evidence: a `routes` entry naming an undeclared graph makes
`graphs.at` throw an uncaught `std::out_of_range`; the process terminates
abnormally instead of exiting with code 1 and a routerd diagnostic. -/
theorem claim6_route_throws :
    routerDMain (.parsed ⟨none, none, [("a", ["h:1"])], [],
      [⟨"/x", "g"⟩], 80, none⟩) = .thrown .outOfRange := rfl

/-- Claim C8 evidence: an unopenable config path leaves `config` as JSON
`null` (after a `Failed to open` message) and `RouterDMain` then throws an
uncaught `type_error` from `config["hosts"].get<...>()`; an unparseable file
throws an uncaught `parse_error` from `json::parse`.  Neither path returns
exit code 1. -/
theorem claim8_parse_throws :
    routerDMain .unopenable = .thrown .typeError ∧
    routerDMain .unparseable = .thrown .parseError := ⟨rfl, rfl⟩

theorem mem_of_getq_eq_some (l : List Char) (n : Nat) (c : Char)
    (h : l.get? n = some c) : c ∈ l := by
  induction l generalizing n with
  | nil => exact absurd h (by simp)
  | cons x xs ih =>
    cases n with
    | zero =>
      rw [List.get?_cons_zero] at h
      injection h with h
      exact h ▸ List.mem_cons_self x xs
    | succ n =>
      rw [List.get?_cons_succ] at h
      exact List.mem_cons_of_mem x (ih n h)

theorem rfindColon_none_spec : ∀ (l : List Char), rfindColon l = none →
    ∀ c ∈ l, c ≠ ':' := by
  intro l
  induction l with
  | nil =>
    intro _ c hc
    exact absurd hc (List.not_mem_nil c)
  | cons c cs ih =>
    intro h x hx
    rw [rfindColon] at h
    cases hcs : rfindColon cs with
    | some k =>
      rw [hcs] at h
      exact absurd h (by simp)
    | none =>
      rw [hcs] at h
      by_cases hc : c = ':'
      · rw [if_pos hc] at h
        exact absurd h (by simp)
      · rw [if_neg hc] at h
        rcases List.mem_cons.mp hx with hx | hx
        · exact hx ▸ hc
        · exact ih hcs x hx

theorem rfindColon_some_spec : ∀ (l : List Char) (i : Nat),
    rfindColon l = some i →
    l.get? i = some ':' ∧ ∀ j, i < j → l.get? j ≠ some ':' := by
  intro l
  induction l with
  | nil =>
    intro i h
    exact absurd h (by simp [rfindColon])
  | cons c cs ih =>
    intro i h
    rw [rfindColon] at h
    cases hcs : rfindColon cs with
    | some k =>
      rw [hcs] at h
      injection h with h
      subst h
      obtain ⟨h1, h2⟩ := ih k hcs
      constructor
      · rw [List.get?_cons_succ]
        exact h1
      · intro j hj hcontra
        cases j with
        | zero => omega
        | succ j' =>
          rw [List.get?_cons_succ] at hcontra
          exact h2 j' (by omega) hcontra
    | none =>
      rw [hcs] at h
      by_cases hc : c = ':'
      · rw [if_pos hc] at h
        injection h with h
        subst h
        constructor
        · rw [List.get?_cons_zero, hc]
        · intro j hj hcontra
          cases j with
          | zero => omega
          | succ j' =>
            rw [List.get?_cons_succ] at hcontra
            exact rfindColon_none_spec cs hcs ':'
              (mem_of_getq_eq_some cs j' ':' hcontra) rfl
      · rw [if_neg hc] at h
        exact absurd h (by simp)

/-- Claim C9: a host string containing a colon is split at the LAST colon —
`Addr` is the prefix before index `i` of the final colon and `Port` is
extracted from the suffix after it — and the parse always succeeds, whatever
the suffix looks like. -/
theorem claim9_last_colon (group host : String) (i : Nat)
    (h : rfindColon host.data = some i) :
    parseHost group host =
      .ok ⟨⟨host.data.take i⟩, parsePort (host.data.drop (i + 1))⟩ ∧
    host.data.get? i = some ':' ∧
    ∀ j, i < j → host.data.get? j ≠ some ':' :=
  ⟨parseHost_of_some group host i h, (rfindColon_some_spec host.data i h).1,
    (rfindColon_some_spec host.data i h).2⟩

/-- Witness for claim C9: `"a:b:80"` splits into address `"a:b"` and port
`80`, and a non-numeric suffix (`"x:foo"`) still parses (port 0). -/
theorem claim9_witness :
    rfindColon ("a:b:80").data = some 3 ∧
    parseHost "g" "a:b:80" = .ok ⟨"a:b", 80⟩ ∧
    ("a:b:80").data.get? 3 = some ':' ∧
    parseHost "g" "x:foo" = .ok ⟨"x", 0⟩ := by
  refine ⟨rfl, ?_, ?_, ?_⟩
  · exact (claim9_last_colon "g" "a:b:80" 3 rfl).1
  · exact (claim9_last_colon "g" "a:b:80" 3 rfl).2.1
  · exact (claim9_last_colon "g" "x:foo" 1 rfl).1

/-- Claim C10: for a service name `n` not in progress, `NewRequest n`
followed by `NewReply n` restores the in-progress set exactly (as observed
by `IsInProgress` on every name and by `InProgressCount`), and a lone
`NewReply n` — a reply for an undispatched or already-replied service — is
silently dropped, leaving the set unchanged. -/
theorem claim10_inprogress (r : TRouterDRequest) (n : String)
    (h : r.IsInProgress n = false) :
    ((r.NewRequest n).NewReply n = r) ∧
    (∀ m, ((r.NewRequest n).NewReply n).IsInProgress m = r.IsInProgress m) ∧
    ((r.NewRequest n).NewReply n).InProgressCount = r.InProgressCount ∧
    (r.NewReply n = r) ∧
    (∀ m, (r.NewReply n).IsInProgress m = r.IsInProgress m) ∧
    (r.NewReply n).InProgressCount = r.InProgressCount := by
  have hn : n ∉ r.InProgress := by
    intro hmem
    rw [TRouterDRequest.IsInProgress] at h
    simp [hmem] at h
  have h1 : (r.NewRequest n).NewReply n = r := by
    show (⟨(insert n r.InProgress).erase n⟩ : TRouterDRequest) = r
    rw [Finset.erase_insert hn]
  have h2 : r.NewReply n = r := by
    show (⟨r.InProgress.erase n⟩ : TRouterDRequest) = r
    rw [Finset.erase_eq_of_not_mem hn]
  exact ⟨h1, fun m => by rw [h1], by rw [h1], h2, fun m => by rw [h2],
    by rw [h2]⟩

/-- Witness for claim C10 with the in-progress set `{"x"}` and the
not-in-progress name `"y"`. -/
theorem claim10_witness :
    (⟨{"x"}⟩ : TRouterDRequest).IsInProgress "y" = false ∧
    ((((⟨{"x"}⟩ : TRouterDRequest).NewRequest "y").NewReply "y" =
        (⟨{"x"}⟩ : TRouterDRequest)) ∧
      (∀ m, (((⟨{"x"}⟩ : TRouterDRequest).NewRequest "y").NewReply
          "y").IsInProgress m =
        (⟨{"x"}⟩ : TRouterDRequest).IsInProgress m) ∧
      (((⟨{"x"}⟩ : TRouterDRequest).NewRequest "y").NewReply
          "y").InProgressCount =
        (⟨{"x"}⟩ : TRouterDRequest).InProgressCount ∧
      ((⟨{"x"}⟩ : TRouterDRequest).NewReply "y" =
        (⟨{"x"}⟩ : TRouterDRequest)) ∧
      (∀ m, ((⟨{"x"}⟩ : TRouterDRequest).NewReply "y").IsInProgress m =
        (⟨{"x"}⟩ : TRouterDRequest).IsInProgress m) ∧
      ((⟨{"x"}⟩ : TRouterDRequest).NewReply "y").InProgressCount =
        (⟨{"x"}⟩ : TRouterDRequest).InProgressCount) :=
  ⟨by decide, claim10_inprogress ⟨{"x"}⟩ "y" (by decide)⟩

/-- Witness for claim C4 at a concrete dependency entry `{a,b}` between two
declared services, reached with an empty processed prefix. -/
theorem claim4_witness :
    (compileDeps "g" [("a", ⟨"a", "a", ""⟩), ("b", ⟨"b", "b", ""⟩)]
      (SMap.empty, SMap.empty) [] = .ok (SMap.empty, SMap.empty)) ∧
    (((⟨"a", "b"⟩ : Dep).a = (⟨"a", "b"⟩ : Dep).b →
      compileDeps "g" [("a", ⟨"a", "a", ""⟩), ("b", ⟨"b", "b", ""⟩)]
        (SMap.empty, SMap.empty) ([] ++ ⟨"a", "b"⟩ :: []) =
        .error (.SelfDependency "g" (⟨"a", "b"⟩ : Dep).a)) ∧
    ((⟨"a", "b"⟩ : Dep).a ≠ (⟨"a", "b"⟩ : Dep).b →
      containsKey [("a", (⟨"a", "a", ""⟩ : TService)),
        ("b", ⟨"b", "b", ""⟩)] (⟨"a", "b"⟩ : Dep).a = false →
      compileDeps "g" [("a", ⟨"a", "a", ""⟩), ("b", ⟨"b", "b", ""⟩)]
        (SMap.empty, SMap.empty) ([] ++ ⟨"a", "b"⟩ :: []) =
        .error (.UnknownService "g" (⟨"a", "b"⟩ : Dep).a)) ∧
    ((⟨"a", "b"⟩ : Dep).a ≠ (⟨"a", "b"⟩ : Dep).b →
      containsKey [("a", (⟨"a", "a", ""⟩ : TService)),
        ("b", ⟨"b", "b", ""⟩)] (⟨"a", "b"⟩ : Dep).a = true →
      containsKey [("a", (⟨"a", "a", ""⟩ : TService)),
        ("b", ⟨"b", "b", ""⟩)] (⟨"a", "b"⟩ : Dep).b = false →
      compileDeps "g" [("a", ⟨"a", "a", ""⟩), ("b", ⟨"b", "b", ""⟩)]
        (SMap.empty, SMap.empty) ([] ++ ⟨"a", "b"⟩ :: []) =
        .error (.UnknownService "g" (⟨"a", "b"⟩ : Dep).b)) ∧
    ((⟨"a", "b"⟩ : Dep).a ≠ (⟨"a", "b"⟩ : Dep).b →
      containsKey [("a", (⟨"a", "a", ""⟩ : TService)),
        ("b", ⟨"b", "b", ""⟩)] (⟨"a", "b"⟩ : Dep).a = true →
      containsKey [("a", (⟨"a", "a", ""⟩ : TService)),
        ("b", ⟨"b", "b", ""⟩)] (⟨"a", "b"⟩ : Dep).b = true →
      compileDeps "g" [("a", ⟨"a", "a", ""⟩), ("b", ⟨"b", "b", ""⟩)]
        (SMap.empty, SMap.empty) ([] ++ ⟨"a", "b"⟩ :: []) =
        compileDeps "g" [("a", ⟨"a", "a", ""⟩), ("b", ⟨"b", "b", ""⟩)]
          ((SMap.empty, SMap.empty).1.insertVal (⟨"a", "b"⟩ : Dep).a
            (⟨"a", "b"⟩ : Dep).b,
           (SMap.empty, SMap.empty).2.insertVal (⟨"a", "b"⟩ : Dep).b
            (⟨"a", "b"⟩ : Dep).a) [] ∧
      (⟨"a", "b"⟩ : Dep).b ∈
        ((SMap.empty, SMap.empty).1.insertVal (⟨"a", "b"⟩ : Dep).a
          (⟨"a", "b"⟩ : Dep).b).val (⟨"a", "b"⟩ : Dep).a ∧
      (⟨"a", "b"⟩ : Dep).a ∈
        ((SMap.empty, SMap.empty).2.insertVal (⟨"a", "b"⟩ : Dep).b
          (⟨"a", "b"⟩ : Dep).a).val (⟨"a", "b"⟩ : Dep).b)) :=
  ⟨rfl, claim4_dep_entry "g" [("a", ⟨"a", "a", ""⟩), ("b", ⟨"b", "b", ""⟩)]
    (SMap.empty, SMap.empty) (SMap.empty, SMap.empty) [] ⟨"a", "b"⟩ [] rfl⟩

/-- Witness for claim C5 at a concrete bare-string service entry, reached
with an empty processed prefix. -/
theorem claim5_witness :
    (compileServices "g" [("a", [⟨"h", 1⟩])] ⟨SMap.empty, []⟩ [] =
      .ok ⟨SMap.empty, []⟩) ∧
    ((∀ n, ServiceEntry.str "a" = .str n →
      (normalizeService (.str "a")).Name = n ∧
      (normalizeService (.str "a")).HostsFrom = n) ∧
    (∀ n hf p, ServiceEntry.str "a" = .obj n hf p →
      (normalizeService (.str "a")).Name = n ∧
      (∀ h', hf = some h' → (normalizeService (.str "a")).HostsFrom = h') ∧
      (hf = none → (normalizeService (.str "a")).HostsFrom = n)) ∧
    (containsKey [("a", [(⟨"h", 1⟩ : TServiceHost)])]
        (normalizeService (.str "a")).HostsFrom = false →
      compileServices "g" [("a", [⟨"h", 1⟩])] ⟨SMap.empty, []⟩
        ([] ++ .str "a" :: []) =
        .error (.UnknownHostGroup "g"
          (normalizeService (.str "a")).HostsFrom)) ∧
    (containsKey [("a", [(⟨"h", 1⟩ : TServiceHost)])]
        (normalizeService (.str "a")).HostsFrom = true →
      containsKey (⟨SMap.empty, []⟩ : ServState).services
        (normalizeService (.str "a")).Name = true →
      compileServices "g" [("a", [⟨"h", 1⟩])] ⟨SMap.empty, []⟩
        ([] ++ .str "a" :: []) =
        .error (.DuplicateService "g" (normalizeService (.str "a")).Name)) ∧
    (containsKey [("a", [(⟨"h", 1⟩ : TServiceHost)])]
        (normalizeService (.str "a")).HostsFrom = true →
      containsKey (⟨SMap.empty, []⟩ : ServState).services
        (normalizeService (.str "a")).Name = false →
      compileServices "g" [("a", [⟨"h", 1⟩])] ⟨SMap.empty, []⟩
        ([] ++ .str "a" :: []) =
        compileServices "g" [("a", [⟨"h", 1⟩])]
          ⟨(⟨SMap.empty, []⟩ : ServState).tree.emplace
              (normalizeService (.str "a")).Name,
            (⟨SMap.empty, []⟩ : ServState).services ++
              [((normalizeService (.str "a")).Name,
                normalizeService (.str "a"))]⟩ [])) :=
  ⟨rfl, claim5_service_entry "g" [("a", [⟨"h", 1⟩])] ⟨SMap.empty, []⟩
    ⟨SMap.empty, []⟩ [] (.str "a") [] rfl⟩
